import Mathlib

/-
Verification development for the doc-gen template placeholder engine and
document renderer (document_control/services.py).

The embedding models Python strings as lists of characters (PyStr).  Python
string/regex operations used by the source are modelled by executable Lean
functions; the python-docx document object model is modelled by plain
structures (Run, Paragraph, Document).  Stateful methods become functions
from state to state; a Python exception becomes an (Option PyErr) component
of the result, carrying the partially mutated state at the moment the
exception is raised.
-/

namespace DocGen

/-- Python strings are modelled as lists of characters. -/
abbrev PyStr := List Char

/-- Python str whitespace class (space, tab, newline, CR, VT, FF). -/
def pyIsSpace (c : Char) : Bool :=
  c = ' ' || c = '\t' || c = '\n' || c = '\r' || c = '\x0b' || c = '\x0c'

/-- Python str.strip(): remove leading and trailing whitespace. -/
def pyStrip (s : PyStr) : PyStr :=
  ((s.dropWhile pyIsSpace).reverse.dropWhile pyIsSpace).reverse

/-- Python str.lower(), restricted to the ASCII case mapping. -/
def pyLower (s : PyStr) : PyStr := s.map Char.toLower

/-- Concatenate a list of strings. -/
def concatAll (ls : List PyStr) : PyStr := ls.foldr (· ++ ·) []

/-- Does needle occur as a prefix of hay? -/
def pyStartsWith : PyStr → PyStr → Bool
  | [], _ => true
  | _ :: _, [] => false
  | a :: as, b :: bs => a = b && pyStartsWith as bs

/-- Python `needle in hay` substring containment. -/
def pySubstr (needle : PyStr) : PyStr → Bool
  | [] => needle.isEmpty
  | c :: rest => pyStartsWith needle (c :: rest) || pySubstr needle rest

/-- If needle is a prefix of hay, return the remainder of hay. -/
def chompLeft : PyStr → PyStr → Option PyStr
  | [], hay => some hay
  | _ :: _, [] => none
  | a :: as, b :: bs => if a = b then chompLeft as bs else none

/-- Python str.split(sep) for a single-character separator. -/
def pySplitChar (ch : Char) : PyStr → List PyStr
  | [] => [[]]
  | c :: rest =>
    if c = ch then [] :: pySplitChar ch rest
    else
      match pySplitChar ch rest with
      | [] => [[c]]
      | h :: t => (c :: h) :: t

/-- Fuel-driven worker for pySplitOn; fuel bounds the scan length so that the
definition is structurally recursive (hence kernel-reducible). -/
def pySplitOnFuel (sep : PyStr) : Nat → PyStr → List PyStr
  | _, [] => [[]]
  | 0, s => [s]
  | Nat.succ f, a :: rest =>
    match chompLeft sep (a :: rest) with
    | some rest' =>
      if sep.isEmpty then
        match pySplitOnFuel sep f rest with
        | [] => [[a]]
        | h :: t => (a :: h) :: t
      else [] :: pySplitOnFuel sep f rest'
    | none =>
      match pySplitOnFuel sep f rest with
      | [] => [[a]]
      | h :: t => (a :: h) :: t

/-- Python str.split(sep) for a multi-character separator (sep nonempty in
all uses by the source: the separators are literals like a colon-suffixed
keyword). -/
def pySplitOn (sep s : PyStr) : List PyStr := pySplitOnFuel sep s.length s

/-- Fuel-driven worker for pyReplace (Python str.replace, all occurrences,
scanning left to right and not rescanning replaced text). -/
def pyReplaceFuel (old new : PyStr) : Nat → PyStr → PyStr
  | _, [] => []
  | 0, s => s
  | Nat.succ f, a :: rest =>
    match chompLeft old (a :: rest) with
    | some rest' => new ++ pyReplaceFuel old new f rest'
    | none => a :: pyReplaceFuel old new f rest

/-- Python s.replace(old, new).  The empty-old case follows Python (new is
inserted at every boundary); every use by the source has old nonempty. -/
def pyReplace (s old new : PyStr) : PyStr :=
  if old.isEmpty then new ++ concatAll (s.map (fun c => [c] ++ new))
  else pyReplaceFuel old new s.length s

/-- Scanner for the placeholder pattern of services.py (an opening double
brace, a shortest newline-free content, a closing double brace), modelling
re.findall / re.finditer with the non-greedy pattern used throughout the
source.  One character is consumed per step.  States: out = outside any
candidate; opn = one opening brace seen; ins = inside a candidate, content
accumulated in reverse; cls = inside a candidate, one closing brace seen.
On a newline the candidate is abandoned and scanning resumes outside (the
regex dot does not match a newline); this is faithful because no match can
start between a failed opener and the newline — that region contains no
closing brace pair at all, or the scan would have closed already. -/
inductive ScanSt where
  | out
  | opn
  | ins (accRev : PyStr)
  | cls (accRev : PyStr)
deriving DecidableEq, Repr

def findTokGo (st : ScanSt) : PyStr → List PyStr
  | [] => []
  | c :: rest =>
    match st with
    | .out => if c = '\x7b' then findTokGo .opn rest else findTokGo .out rest
    | .opn => if c = '\x7b' then findTokGo (.ins []) rest else findTokGo .out rest
    | .ins acc =>
      if c = '\x7d' then findTokGo (.cls acc) rest
      else if c = '\n' then findTokGo .out rest
      else findTokGo (.ins (c :: acc)) rest
    | .cls acc =>
      if c = '\x7d' then acc.reverse :: findTokGo .out rest
      else if c = '\n' then findTokGo .out rest
      else findTokGo (.ins (c :: '\x7d' :: acc)) rest

/-- All placeholder contents of a text, in scan order. -/
def findTok (s : PyStr) : List PyStr := findTokGo .out s

/-- The full placeholder string for a content: content wrapped in double
braces (match.group(0) in the source). -/
def tokStr (c : PyStr) : PyStr := '\x7b' :: '\x7b' :: (c ++ ['\x7d', '\x7d'])

/-- Python str.title() (ASCII): capitalize the first letter of each run of
letters, lowercase the rest. -/
def pyTitleGo : Bool → PyStr → PyStr
  | _, [] => []
  | prev, c :: rest =>
    (if c.isAlpha then (if prev then c.toLower else c.toUpper) else c)
      :: pyTitleGo c.isAlpha rest

def pyTitle (s : PyStr) : PyStr := pyTitleGo false s

/-- var_name.replace(an underscore, a space) as used for default labels. -/
def underscoresToSpaces (s : PyStr) : PyStr :=
  s.map (fun c => if c = '_' then ' ' else c)

/-- re.match of the anchored lazy pattern "caret (.+?) underscore (digits) dollar":
the shortest nonempty name part followed by an underscore and a nonempty
all-digit suffix reaching the end.  Scanning left to right for the first
underscore whose remainder is a nonempty digit string realises the lazy
group exactly. -/
def pyMatchPfxNumGo (accRev : PyStr) : PyStr → Option (PyStr × PyStr)
  | [] => none
  | c :: rest =>
    if c = '_' ∧ accRev ≠ [] ∧ rest ≠ [] ∧ rest.all Char.isDigit then
      some (accRev.reverse, rest)
    else pyMatchPfxNumGo (c :: accRev) rest

def pyMatchPfxNum (s : PyStr) : Option (PyStr × PyStr) := pyMatchPfxNumGo [] s

/-- re.match of the anchored lazy pattern for linked name fields: shortest
nonempty name part, underscore, a nonempty digit group, then the literal
suffix underscore-name at the end.  For a fixed split point the digit group
is the maximal digit run (backtracking cannot help, since shrinking it puts
a digit where the literal suffix must start). -/
def pyMatchNameFldGo (accRev : PyStr) : PyStr → Option (PyStr × PyStr)
  | [] => none
  | c :: rest =>
    if c = '_' ∧ accRev ≠ [] ∧ rest.takeWhile Char.isDigit ≠ []
        ∧ rest.dropWhile Char.isDigit = ['_', 'n', 'a', 'm', 'e'] then
      some (accRev.reverse, rest.takeWhile Char.isDigit)
    else pyMatchNameFldGo (c :: accRev) rest

def pyMatchNameFld (s : PyStr) : Option (PyStr × PyStr) := pyMatchNameFldGo [] s

/-- Numeric value of a digit string. -/
def digitsToNat (ds : PyStr) : Nat :=
  ds.foldl (fun n c => n * 10 + (c.toNat - '0'.toNat)) 0

/-- Exponent part of a float literal: empty means exponent 0; otherwise the
letter e (either case), an optional sign and a nonempty digit string ending
the input. -/
def pyFloatExp? : PyStr → Option ℤ
  | [] => some 0
  | e :: r =>
    if e = 'e' ∨ e = 'E' then
      let (sgn, r') : ℤ × PyStr :=
        match r with
        | '-' :: rr => (-1, rr)
        | '+' :: rr => (1, rr)
        | rr => (1, rr)
      let ds := r'.takeWhile Char.isDigit
      if ds ≠ [] ∧ r'.dropWhile Char.isDigit = [] then
        some (sgn * (digitsToNat ds : ℤ))
      else none
    else none

/-- Python float(s), modelled as an exact rational: optional surrounding
whitespace, optional sign, then digits with an optional fractional part or a
fractional part alone, and an optional exponent.  The special spellings
(inf, infinity, nan) and digit-group underscores accepted by Python have no
rational value and are not modelled; no placeholder validation in this
repository uses them. -/
def pyFloat? (s0 : PyStr) : Option ℚ :=
  let s := pyStrip s0
  let (sgn, s1) : ℚ × PyStr :=
    match s with
    | '-' :: r => (-1, r)
    | '+' :: r => (1, r)
    | r => (1, r)
  let ip := s1.takeWhile Char.isDigit
  let r1 := s1.dropWhile Char.isDigit
  let mk (ip fp : PyStr) (rest : PyStr) : Option ℚ :=
    match pyFloatExp? rest with
    | none => none
    | some e =>
      let m : ℚ := (digitsToNat ip : ℚ) + (digitsToNat fp : ℚ) / (10 : ℚ) ^ fp.length
      some (sgn * m * (10 : ℚ) ^ e)
  match r1 with
  | '.' :: r2 =>
    let fp := r2.takeWhile Char.isDigit
    let r3 := r2.dropWhile Char.isDigit
    if ip = [] ∧ fp = [] then none else mk ip fp r3
  | r2 => if ip = [] then none else mk ip [] r2

/-! ### Literal strings of the source -/

def textLit : PyStr := ['t', 'e', 'x', 't']
def sigLit : PyStr := ['s', 'i', 'g', 'n', 'a', 't', 'u', 'r', 'e']
def numberLit : PyStr := ['n', 'u', 'm', 'b', 'e', 'r']
def autofilledLit : PyStr := ['a', 'u', 't', 'o', 'f', 'i', 'l', 'l', 'e', 'd']
def requiredLit : PyStr := ['r', 'e', 'q', 'u', 'i', 'r', 'e', 'd']
def optionsLit : PyStr := ['o', 'p', 't', 'i', 'o', 'n', 's', ':']
def minLit : PyStr := ['m', 'i', 'n', ':']
def maxLit : PyStr := ['m', 'a', 'x', ':']
def checkboxLit : PyStr := ['c', 'h', 'e', 'c', 'k', 'b', 'o', 'x']
def trueLit : PyStr := ['t', 'r', 'u', 'e']
def oneLit : PyStr := ['1']
def yesLowerLit : PyStr := ['y', 'e', 's']
def onLit : PyStr := ['o', 'n']
def yesLit : PyStr := ['Y', 'e', 's']
def noLit : PyStr := ['N', 'o']
def headingLit : PyStr := ['H', 'e', 'a', 'd', 'i', 'n', 'g']
def inchesLit : PyStr := ['I', 'n', 'c', 'h', 'e', 's']

/-- The names bound at module level by the import statements of services.py
(lines 1 to 7): os, re, HTMLParser, BytesIO, Document, RGBColor. -/
def servicesImportedNames : List PyStr :=
  [['o', 's'], ['r', 'e'],
   ['H', 'T', 'M', 'L', 'P', 'a', 'r', 's', 'e', 'r'],
   ['B', 'y', 't', 'e', 's', 'I', 'O'],
   ['D', 'o', 'c', 'u', 'm', 'e', 'n', 't'],
   ['R', 'G', 'B', 'C', 'o', 'l', 'o', 'r']]

/-- Whether the name Inches is bound in the module namespace of services.py.
It is referenced at the image-insertion sites but never imported, so it is
unbound and referencing it raises a NameError. -/
def inchesDefined : Bool := servicesImportedNames.any (· = inchesLit)

/-- A Python exception propagating out of a modelled call. -/
inductive PyErr where
  | nameError (n : PyStr)
deriving DecidableEq, Repr

/-! ### The python-docx document object model -/

structure Run where
  text : PyStr := []
  bold : Bool := false
  italic : Bool := false
  underline : Bool := false
  strike : Bool := false
  color : Option (Nat × Nat × Nat) := none
  breaks : Nat := 0
  picture : Option (PyStr × Nat) := none
deriving DecidableEq, Repr

structure Paragraph where
  runs : List Run := []
  styleName : PyStr := []
deriving DecidableEq, Repr

/-- paragraph.text: the concatenation of the texts of the runs (picture runs
and break elements contribute nothing). -/
def Paragraph.text (p : Paragraph) : PyStr := concatAll (p.runs.map Run.text)

abbrev Cell := List Paragraph
abbrev Row := List Cell
abbrev Table := List Row

structure Document where
  paragraphs : List Paragraph := []
  tables : List Table := []
deriving DecidableEq, Repr

def plainRun (t : PyStr) : Run := { text := t }

def emptyRun : Run := {}

def flatMapAll {α β : Type} (f : α → List β) : List α → List β
  | [] => []
  | a :: as => f a ++ flatMapAll f as

/-- All table-cell paragraphs of a document in the row-major order every
walk of the source uses (tables, then rows, then cells, then paragraphs). -/
def docCellParas (doc : Document) : List Paragraph :=
  flatMapAll (fun t => flatMapAll (fun row => flatMapAll id row) t) doc.tables

/-- The texts of all body paragraphs followed by all table-cell paragraphs,
the scan order shared by parse, generate and the signature passes. -/
def docTexts (doc : Document) : List PyStr :=
  (doc.paragraphs ++ docCellParas doc).map Paragraph.text

/-- Apply a paragraph transformation to every body paragraph and every
table-cell paragraph, the traversal all substitution passes perform. -/
def mapDocParas (f : Paragraph → Paragraph) (doc : Document) : Document :=
  { paragraphs := doc.paragraphs.map f,
    tables := doc.tables.map (fun t => t.map (fun row => row.map (fun cell => cell.map f))) }

/-! ### Placeholder content fields -/

/-- match_content.split(pipe)[0].strip(): the variable name of a content. -/
def contentName (c : PyStr) : PyStr := pyStrip ((pySplitChar '|' c).headD [])

/-- Field type as computed in _replace_in_paragraph: the second part when
the pipe-split has more than one part, else the text default. -/
def typeByLen (c : PyStr) : PyStr :=
  let parts := pySplitChar '|' c
  if 1 < parts.length then pyStrip (parts.getD 1 []) else textLit

/-- Field type as computed in the signature passes: the second part when the
content contains a pipe, else the text default (equivalent to typeByLen,
transcribed separately because the source spells the test differently). -/
def typeByPipe (c : PyStr) : PyStr :=
  if pySubstr ['|'] c then pyStrip ((pySplitChar '|' c).getD 1 []) else textLit

/-! ### Rich-text formatter (HTMLToDocxConverter / HTMLFormattingParser)

The stdlib HTML tokenizer (html.parser.HTMLParser) is external to the
repository; it is modelled as an abstract event stream supplied by a
`tokenize` parameter.  The repository's callback methods (handle_starttag,
handle_endtag, handle_data, _pop_format, _parse_color) are embedded
faithfully over those events. -/

inductive HEvent where
  | startTag (tag : PyStr) (attrs : List (PyStr × PyStr))
  | endTag (tag : PyStr)
  | textData (d : PyStr)
deriving DecidableEq, Repr

/-- A value pushed on the format stack: a boolean flag for bold and friends,
a colour string for the span colours. -/
inductive FmtVal where
  | flag (b : Bool)
  | col (c : PyStr)
deriving DecidableEq, Repr

structure HState where
  formatStack : List (PyStr × FmtVal) := []
  bold : Bool := false
  italic : Bool := false
  underline : Bool := false
  strike : Bool := false
  color : Option PyStr := none
  bg_color : Option PyStr := none
  hasRun : Bool := false
deriving DecidableEq, Repr

def strongTagLit : PyStr := "strong".toList
def bTagLit : PyStr := ['b']
def emTagLit : PyStr := "em".toList
def iTagLit : PyStr := ['i']
def uTagLit : PyStr := ['u']
def strikeTagLit : PyStr := "strike".toList
def sTagLit : PyStr := ['s']
def delTagLit : PyStr := "del".toList
def spanTagLit : PyStr := "span".toList
def brTagLit : PyStr := "br".toList
def pTagLit : PyStr := ['p']
def styleLit : PyStr := "style".toList
def boldKeyLit : PyStr := "bold".toList
def italicKeyLit : PyStr := "italic".toList
def underlineKeyLit : PyStr := "underline".toList
def strikeKeyLit : PyStr := "strikethrough".toList
def colorKeyLit : PyStr := "color".toList
def bgKeyLit : PyStr := "bg_color".toList
def colorPropLit : PyStr := "color:".toList
def bgPropLit : PyStr := "background-color:".toList

/-- dict(attrs).get(key, default empty): with duplicate attributes the last
occurrence wins, as in the Python dict constructor. -/
def attrsGet (attrs : List (PyStr × PyStr)) (k : PyStr) : PyStr :=
  (((attrs.reverse.find? (fun kv => decide (kv.1 = k))).map (·.2)).getD [])

/-- re.search of a property pattern (the literal needle, optional
whitespace, then one or more non-semicolon characters, captured): scanning
left to right, at each occurrence of the needle the match succeeds exactly
when at least one character follows and the first of them is not a
semicolon; the captured group is the maximal non-semicolon run after the
greedily consumed whitespace, except that when that run is empty the
whitespace loop backtracks one character, making the group that single
whitespace character. -/
def searchPropGo (needle : PyStr) : Nat → PyStr → Option PyStr
  | _, [] => none
  | 0, _ => none
  | Nat.succ f, a :: rest =>
    match chompLeft needle (a :: rest) with
    | some t =>
      if t = [] ∨ t.headD ' ' = ';' then searchPropGo needle f rest
      else
        let r := t.dropWhile pyIsSpace
        if r ≠ [] ∧ r.headD ' ' ≠ ';' then some (r.takeWhile (· ≠ ';'))
        else some [(t.takeWhile pyIsSpace).getLastD ' ']
    | none => searchPropGo needle f rest

def searchProp (needle s : PyStr) : Option PyStr := searchPropGo needle s.length s

/-- int(h, 16) of a lowercase hex digit. -/
def hexDigit? (c : Char) : Option Nat :=
  if c.isDigit then some (c.toNat - '0'.toNat)
  else if 'a' ≤ c ∧ c ≤ 'f' then some (c.toNat - 'a'.toNat + 10)
  else none

/-- int(h, 16) of a hex string (the inputs are already lowercased by
_parse_color).  Python raises ValueError on a non-hex digit; that raise is
modelled as the absence of a colour — a deviation confined to the rich-text
colour path, which no claim exercises. -/
def hexVal? : PyStr → Option Nat
  | [] => none
  | [c] => hexDigit? c
  | c :: rest =>
    match hexDigit? c, hexVal? rest with
    | some d, some v => some (d * 16 ^ rest.length + v)
    | _, _ => none

def namedColors : List (PyStr × (Nat × Nat × Nat)) :=
  [(r"black".toList, (0, 0, 0)), (r"white".toList, (255, 255, 255)),
   (r"red".toList, (255, 0, 0)), (r"green".toList, (0, 128, 0)),
   (r"blue".toList, (0, 0, 255)), (r"yellow".toList, (255, 255, 0)),
   (r"cyan".toList, (0, 255, 255)), (r"magenta".toList, (255, 0, 255)),
   (r"gray".toList, (128, 128, 128)), (r"grey".toList, (128, 128, 128))]

/-- re.match of the rgb triple pattern: the literal rgb and opening
parenthesis at the start, digits, comma, optional whitespace, digits, comma,
optional whitespace, digits, closing parenthesis; trailing characters are
allowed (re.match only anchors the start). -/
def parseRgbTriple (s : PyStr) : Option (Nat × Nat × Nat) :=
  match chompLeft (r"rgb(".toList) s with
  | none => none
  | some r1 =>
    let d1 := r1.takeWhile Char.isDigit
    if d1 = [] then none
    else
      match r1.dropWhile Char.isDigit with
      | ',' :: r2 =>
        let r2' := r2.dropWhile pyIsSpace
        let d2 := r2'.takeWhile Char.isDigit
        if d2 = [] then none
        else
          match r2'.dropWhile Char.isDigit with
          | ',' :: r3 =>
            let r3' := r3.dropWhile pyIsSpace
            let d3 := r3'.takeWhile Char.isDigit
            if d3 = [] then none
            else
              match r3'.dropWhile Char.isDigit with
              | ')' :: _ => some (digitsToNat d1, digitsToNat d2, digitsToNat d3)
              | _ => none
          | _ => none
      | _ => none

/-- _parse_color: strip and lowercase; hash-led hex (6 or 3 digits, leading
hashes stripped), else the rgb triple form, else the fixed name table. -/
def parseColor (s0 : PyStr) : Option (Nat × Nat × Nat) :=
  let s := pyLower (pyStrip s0)
  if pyStartsWith ['#'] s then
    let h := s.dropWhile (· = '#')
    if h.length = 6 then
      match hexVal? (h.take 2), hexVal? ((h.drop 2).take 2), hexVal? (h.drop 4) with
      | some r, some g, some b => some (r, g, b)
      | _, _, _ => none
    else if h.length = 3 then
      match h with
      | [a, b, c] =>
        match hexVal? [a, a], hexVal? [b, b], hexVal? [c, c] with
        | some r, some g, some bl => some (r, g, bl)
        | _, _, _ => none
      | _ => none
    else ((namedColors.find? (fun kv => decide (kv.1 = s))).map (·.2))
  else
    match parseRgbTriple s with
    | some t => some t
    | none => ((namedColors.find? (fun kv => decide (kv.1 = s))).map (·.2))

def mapLastRun (f : Run → Run) : List Run → List Run
  | [] => []
  | [r] => [f r]
  | r :: rs => r :: mapLastRun f rs

/-- run.add_break() on the current run (the last run this formatter added). -/
def addBreakToCurrent (p : Paragraph) (st : HState) : Paragraph :=
  if st.hasRun then { p with runs := mapLastRun (fun r => { r with breaks := r.breaks + 1 }) p.runs }
  else p

def handleStartTag (p : Paragraph) (st : HState) (tag : PyStr)
    (attrs : List (PyStr × PyStr)) : Paragraph × HState :=
  if tag = strongTagLit ∨ tag = bTagLit then
    (p, { st with formatStack := st.formatStack ++ [(boldKeyLit, FmtVal.flag true)], bold := true })
  else if tag = emTagLit ∨ tag = iTagLit then
    (p, { st with formatStack := st.formatStack ++ [(italicKeyLit, FmtVal.flag true)], italic := true })
  else if tag = uTagLit then
    (p, { st with formatStack := st.formatStack ++ [(underlineKeyLit, FmtVal.flag true)], underline := true })
  else if tag = strikeTagLit ∨ tag = sTagLit ∨ tag = delTagLit then
    (p, { st with formatStack := st.formatStack ++ [(strikeKeyLit, FmtVal.flag true)], strike := true })
  else if tag = spanTagLit then
    let style := attrsGet attrs styleLit
    let st1 :=
      if pySubstr colorPropLit style then
        match searchProp colorPropLit style with
        | some cv =>
          { st with formatStack := st.formatStack ++ [(colorKeyLit, FmtVal.col (pyStrip cv))],
                    color := some (pyStrip cv) }
        | none => st
      else st
    let st2 :=
      if pySubstr bgPropLit style then
        match searchProp bgPropLit style with
        | some cv =>
          { st1 with formatStack := st1.formatStack ++ [(bgKeyLit, FmtVal.col (pyStrip cv))],
                     bg_color := some (pyStrip cv) }
        | none => st1
      else st1
    (p, st2)
  else if tag = brTagLit then
    (addBreakToCurrent p st, st)
  else (p, st)

/-- current_formats[format_type] = False; for the colour keys the stored
falsy value is modelled as none. -/
def clearFmt (st : HState) (key : PyStr) : HState :=
  if key = boldKeyLit then { st with bold := false }
  else if key = italicKeyLit then { st with italic := false }
  else if key = underlineKeyLit then { st with underline := false }
  else if key = strikeKeyLit then { st with strike := false }
  else if key = colorKeyLit then { st with color := none }
  else if key = bgKeyLit then { st with bg_color := none }
  else st

def popFmt (st : HState) (key : PyStr) : HState :=
  match st.formatStack.getLast? with
  | some kv =>
    if kv.1 = key then clearFmt { st with formatStack := st.formatStack.dropLast } key
    else st
  | none => st

def handleEndTag (p : Paragraph) (st : HState) (tag : PyStr) : Paragraph × HState :=
  if tag = strongTagLit ∨ tag = bTagLit then (p, popFmt st boldKeyLit)
  else if tag = emTagLit ∨ tag = iTagLit then (p, popFmt st italicKeyLit)
  else if tag = uTagLit then (p, popFmt st underlineKeyLit)
  else if tag = strikeTagLit ∨ tag = sTagLit ∨ tag = delTagLit then (p, popFmt st strikeKeyLit)
  else if tag = spanTagLit then
    match st.formatStack.getLast? with
    | some kv =>
      if kv.1 = colorKeyLit ∨ kv.1 = bgKeyLit then (p, popFmt st kv.1) else (p, st)
    | none => (p, st)
  else if tag = pTagLit then (addBreakToCurrent p st, st)
  else (p, st)

def handleData (p : Paragraph) (st : HState) (d : PyStr) : Paragraph × HState :=
  if pyStrip d = [] then (p, st)
  else
    let run : Run :=
      { text := d, bold := st.bold, italic := st.italic,
        underline := st.underline, strike := st.strike,
        color :=
          match st.color with
          | some c => if c ≠ [] then parseColor c else none
          | none => none }
    ({ p with runs := p.runs ++ [run] }, { st with hasRun := true })

def htmlFeed (p : Paragraph) (st : HState) : List HEvent → Paragraph
  | [] => p
  | ev :: rest =>
    match ev with
    | .startTag t a =>
      let (p', st') := handleStartTag p st t a
      htmlFeed p' st' rest
    | .endTag t =>
      let (p', st') := handleEndTag p st t
      htmlFeed p' st' rest
    | .textData d =>
      let (p', st') := handleData p st d
      htmlFeed p' st' rest

/-- HTMLToDocxConverter.parse_html: blank content appends nothing; content
without an opening angle bracket is appended verbatim as one unformatted
run; otherwise the content is streamed through the formatting handlers. -/
def parseHtml (tokenize : PyStr → List HEvent) (p : Paragraph) (html : PyStr) : Paragraph :=
  if html = [] ∨ pyStrip html = [] then p
  else if ¬ pySubstr ['<'] html then { p with runs := p.runs ++ [plainRun html] }
  else htmlFeed p {} (tokenize html)

/-! ### TemplateParser.parse -/

structure FieldDef where
  name : PyStr
  ftype : PyStr
  label : PyStr
  validation : PyStr
  options : List PyStr
  min_value : Option ℚ
  max_value : Option ℚ
  is_autofilled : Bool
deriving DecidableEq, Repr

/-- The field definition built for one match content (services.py lines
25 to 64): pipe-split parts with defaults, the options list after the first
options marker, and min and max bounds for number fields, where a failed
float parse leaves the bound absent, as the try/except does. -/
def mkFieldDef (c : PyStr) : FieldDef :=
  let parts := pySplitChar '|' c
  let varName := pyStrip (parts.headD [])
  let ftype := if 1 < parts.length then pyStrip (parts.getD 1 []) else textLit
  let label :=
    if 2 < parts.length then pyStrip (parts.getD 2 [])
    else pyTitle (underscoresToSpaces varName)
  let validation := if 3 < parts.length then pyStrip (parts.getD 3 []) else []
  let options :=
    if pySubstr optionsLit validation then
      (pySplitChar ',' ((pySplitOn optionsLit validation).getD 1 [])).map pyStrip
    else []
  let boundOf (marker : PyStr) : Option ℚ :=
    if pySubstr marker validation then
      pyFloat? (pyStrip ((pySplitChar '|'
        ((pySplitChar ',' ((pySplitOn marker validation).getD 1 [])).headD [])).headD []))
    else none
  { name := varName, ftype := ftype, label := label, validation := validation,
    options := options,
    min_value := if ftype = numberLit then boundOf minLit else none,
    max_value := if ftype = numberLit then boundOf maxLit else none,
    is_autofilled := pySubstr autofilledLit (pyLower validation) }

structure SigGroup where
  pfx : PyStr
  base_field_name : PyStr
  name_field : Option PyStr
  section_label : PyStr
  signature_fields : List FieldDef
  is_required : Bool
deriving DecidableEq, Repr

def groupsFind? (groups : List (PyStr × SigGroup)) (k : PyStr) : Option SigGroup :=
  ((groups.find? (fun kv => decide (kv.1 = k))).map (·.2))

def groupsUpdate (groups : List (PyStr × SigGroup)) (k : PyStr)
    (f : SigGroup → SigGroup) : List (PyStr × SigGroup) :=
  groups.map (fun kv => if kv.1 = k then (kv.1, f kv.2) else kv)

/-- Signature-group registration (services.py lines 66 to 85): on a
signature-typed field whose name matches the numeric-suffix pattern, create
the group on first sight, then append the field, refresh the section label
and accumulate the required flag. -/
def sigBranch (groups : List (PyStr × SigGroup)) (fd : FieldDef) : List (PyStr × SigGroup) :=
  if fd.ftype = sigLit then
    match pyMatchPfxNum fd.name with
    | some (pfx, _) =>
      let req := pySubstr requiredLit (pyLower fd.validation)
      let groups1 :=
        if (groupsFind? groups pfx).isSome then groups
        else groups ++ [(pfx,
          { pfx := pfx, base_field_name := fd.name, name_field := none,
            section_label := fd.label, signature_fields := [], is_required := req })]
      groupsUpdate groups1 pfx (fun g =>
        { g with signature_fields := g.signature_fields ++ [fd],
                 section_label := fd.label,
                 is_required := g.is_required || req })
    | none => groups
  else groups

/-- Name-field linkage (services.py lines 87 to 93): an autofilled text
field whose name matches the name-suffix pattern is linked into the group of
its prefix only when that group already exists at this point of the scan. -/
def nameBranch (groups : List (PyStr × SigGroup)) (fd : FieldDef) : List (PyStr × SigGroup) :=
  if fd.ftype = textLit ∧ fd.is_autofilled then
    match pyMatchNameFld fd.name with
    | some (pfx, _) =>
      if (groupsFind? groups pfx).isSome then
        groupsUpdate groups pfx (fun g => { g with name_field := some fd.name })
      else groups
    | none => groups
  else groups

structure ParseState where
  fields : List FieldDef := []
  seen : List PyStr := []
  groups : List (PyStr × SigGroup) := []
deriving DecidableEq, Repr

/-- Processing of one match content inside extract_from_text: names already
seen are skipped entirely; otherwise the name is recorded, the two group
branches run (they touch only the groups), and the field is appended. -/
def parseStep (st : ParseState) (c : PyStr) : ParseState :=
  if contentName c ∈ st.seen then st
  else
    let fd := mkFieldDef c
    { fields := st.fields ++ [fd],
      seen := st.seen ++ [contentName c],
      groups := nameBranch (sigBranch st.groups fd) fd }

structure ParseResult where
  fields : List FieldDef
  signature_groups : List SigGroup
deriving DecidableEq, Repr

/-- The stream of match contents over the whole document, in scan order:
body paragraphs first, then table cells row-major. -/
def allContents (doc : Document) : List PyStr := flatMapAll findTok (docTexts doc)

def parseOfContents (cs : List PyStr) : ParseResult :=
  let st := cs.foldl parseStep {}
  { fields := st.fields, signature_groups := st.groups.map (·.2) }

/-- TemplateParser.parse. -/
def parseTemplate (doc : Document) : ParseResult := parseOfContents (allContents doc)

/-- Reference function for the dedup claim: keep the first occurrence of
each variable name in the content stream (spec wording: first definition
wins, later occurrences skipped entirely). -/
def firstOccurrencesGo (seen : List PyStr) : List PyStr → List PyStr
  | [] => []
  | c :: rest =>
    if contentName c ∈ seen then firstOccurrencesGo seen rest
    else c :: firstOccurrencesGo (seen ++ [contentName c]) rest

def firstOccurrences (cs : List PyStr) : List PyStr := firstOccurrencesGo [] cs

/-! ### DocumentGenerator: substitution pass -/

def pyDictGet? (d : List (PyStr × PyStr)) (k : PyStr) : Option PyStr :=
  ((d.find? (fun kv => decide (kv.1 = k))).map (·.2))

/-- Python dict insertion: overwrite in place when the key is present, else
append. -/
def pyDictInsert (d : List (PyStr × PyStr)) (k v : PyStr) : List (PyStr × PyStr) :=
  if d.any (fun kv => decide (kv.1 = k)) then
    d.map (fun kv => if kv.1 = k then (k, v) else kv)
  else d ++ [(k, v)]

/-- Checkbox normalization (services.py lines 456 to 460): Yes when the
lowercased value is one of true, 1, yes, on; No otherwise. -/
def checkboxValue (v : PyStr) : PyStr :=
  if pyLower v ∈ [trueLit, oneLit, yesLowerLit, onLit] then yesLit else noLit

/-- The replacement value computed for one placeholder content in
_replace_in_paragraph: none when the type is signature (skipped), otherwise
the data value (checkbox-normalized when the content mentions checkbox,
case-insensitively), and the empty string when the name is not in the data. -/
def replValue (data : List (PyStr × PyStr)) (c : PyStr) : Option PyStr :=
  if typeByLen c = sigLit then none
  else
    match pyDictGet? data (contentName c) with
    | some v0 => some (if pySubstr checkboxLit (pyLower c) then checkboxValue v0 else v0)
    | none => some []

/-- One iteration of the replacements loop: signature matches leave the
dict untouched, everything else inserts under the full placeholder key. -/
def replStep (data : List (PyStr × PyStr)) (repl : List (PyStr × PyStr)) (c : PyStr) :
    List (PyStr × PyStr) :=
  match replValue data c with
  | none => repl
  | some v => pyDictInsert repl (tokStr c) v

/-- The replacements dict of _replace_in_paragraph, built over the matches
in scan order. -/
def buildReplacements (data : List (PyStr × PyStr)) (ms : List PyStr) :
    List (PyStr × PyStr) :=
  ms.foldl (replStep data) []

/-- new_text: fold str.replace over the replacement items in dict order. -/
def applyReplacements (t : PyStr) (repl : List (PyStr × PyStr)) : PyStr :=
  repl.foldl (fun s kv => pyReplace s kv.1 kv.2) t

def hasHtmlValues (repl : List (PyStr × PyStr)) : Bool :=
  repl.any (fun kv => pySubstr ['<'] kv.2 && pySubstr ['>'] kv.2)

/-- DocumentGenerator._replace_in_paragraph. -/
def replaceInParagraph (tokenize : PyStr → List HEvent) (data : List (PyStr × PyStr))
    (p : Paragraph) : Paragraph :=
  let originalText := p.text
  let ms := findTok originalText
  if ms = [] then p
  else
    let repl := buildReplacements data ms
    if repl = [] then p
    else
      let newText := applyReplacements originalText repl
      if newText = originalText then p
      else
        let cleared : Paragraph := { p with runs := [] }
        if hasHtmlValues repl then parseHtml tokenize cleared newText
        else if newText = [] then cleared
        else { cleared with runs := [plainRun newText] }

/-! ### DocumentGenerator: state and exports -/

structure GenState where
  template_path : PyStr
  data : List (PyStr × PyStr)
  document : Document
  signature_path : Option PyStr := none
deriving DecidableEq, Repr

/-- The DOCX byte stream returned by generate: python-docx serialization is
deterministic in the document content, so the bytes are modelled by the
document value itself. -/
structure DocxBytes where
  doc : Document
deriving DecidableEq, Repr

/-- DocumentGenerator.generate: run the substitution pass over every body
paragraph and table-cell paragraph of the held document (mutating it), then
serialize. -/
def generate (tokenize : PyStr → List HEvent) (g : GenState) : DocxBytes × GenState :=
  let doc' := mapDocParas (replaceInParagraph tokenize g.data) g.document
  ({ doc := doc' }, { g with document := doc' })

/-- export_docx: returns self.generate(). -/
def export_docx (tokenize : PyStr → List HEvent) (g : GenState) : DocxBytes × GenState :=
  generate tokenize g

/-- export_doc: returns self.generate() as well; no legacy binary
conversion happens. -/
def export_doc (tokenize : PyStr → List HEvent) (g : GenState) : DocxBytes × GenState :=
  generate tokenize g

/-! ### export_pdf -/

/-- re.sub of the defensive cleanup pattern (double brace, one or more
non-closing-brace characters, double closing brace) with the empty string:
a state machine scanning left to right; on a failed candidate the scan
advances one position, as the regex engine does. -/
def stripTokensFuel : Nat → PyStr → PyStr
  | 0, s => s
  | Nat.succ f, s =>
    match s with
    | '\x7b' :: '\x7b' :: rest =>
      (match rest.takeWhile (· ≠ '\x7d'), rest.dropWhile (· ≠ '\x7d') with
       | _ :: _, '\x7d' :: '\x7d' :: r2 => stripTokensFuel f r2
       | _, _ => '\x7b' :: stripTokensFuel f ('\x7b' :: rest))
    | c :: rest => c :: stripTokensFuel f rest
    | [] => []

def pyStripTokens (s : PyStr) : PyStr := stripTokensFuel s.length s

def escapeXml (t : PyStr) : PyStr :=
  pyReplace (pyReplace (pyReplace t ['&'] "&amp;".toList) ['<'] "&lt;".toList)
    ['>'] "&gt;".toList

/-- DocumentGenerator._format_text_for_reportlab. -/
def formatTextForReportlab (text : PyStr) (p : Paragraph) : PyStr :=
  if p.runs ≠ [] then
    let parts := p.runs.filterMap (fun r =>
      if r.text = [] then none
      else
        let rt := escapeXml r.text
        some (if r.bold ∧ r.italic then
                "<b><i>".toList ++ rt ++ "</i></b>".toList
              else if r.bold then "<b>".toList ++ rt ++ "</b>".toList
              else if r.italic then "<i>".toList ++ rt ++ "</i>".toList
              else rt))
    if parts ≠ [] then concatAll parts else escapeXml text
  else escapeXml text

inductive PdfElement where
  | spacer (tenthsInch : Nat)
  | par (txt : PyStr) (heading : Bool)
  | tbl (rows : List (List PyStr))
deriving DecidableEq, Repr

/-- The flowable elements produced for one body paragraph of the fresh
document (services.py lines 563 to 587). -/
def pdfParaElements (p : Paragraph) : List PdfElement :=
  let text := pyStrip p.text
  if text = [] then [.spacer 1]
  else
    let isHeading :=
      match p.runs with
      | [] => false
      | r :: _ => r.bold || (decide (text.length < 100) && pyStartsWith headingLit p.styleName)
    let text2 := pyStripTokens text
    if text2 = [] then []
    else [.par (formatTextForReportlab text2 p) isHeading, .spacer 1]

def joinSpace : List PyStr → PyStr
  | [] => []
  | [x] => x
  | x :: xs => x ++ ' ' :: joinSpace xs

def pdfCellText (cell : Cell) : PyStr :=
  pyStripTokens (pyStrip (joinSpace (cell.map Paragraph.text)))

/-- The flowable elements produced for one table (services.py lines 589 to
617): a grid of cleaned cell texts framed by spacers, skipped when the
table has no rows. -/
def pdfTableElements (t : Table) : List PdfElement :=
  let rows := t.map (fun row => row.map pdfCellText)
  if rows = [] then [] else [.spacer 2, .tbl rows, .spacer 2]

def buildPdfElements (doc : Document) : List PdfElement :=
  flatMapAll pdfParaElements doc.paragraphs ++ flatMapAll pdfTableElements doc.tables

def reportlabMissingMsg : PyStr :=
  "ReportLab is not installed. Please install it with: pip install reportlab".toList

/-- DocumentGenerator.export_pdf: check the rendering library, load a fresh
document from the template path, run the substitution pass on that local
copy only, and build the page-flow elements.  The generator state is
returned unchanged: the method assigns nothing to self. -/
def export_pdf (fs : PyStr → Document) (tokenize : PyStr → List HEvent)
    (reportlabOk : Bool) (g : GenState) : Except PyStr (List PdfElement) × GenState :=
  if ¬ reportlabOk then (Except.error reportlabMissingMsg, g)
  else
    let doc := mapDocParas (replaceInParagraph tokenize g.data) (fs g.template_path)
    (Except.ok (buildPdfElements doc), g)

/-! ### Signature insertion (apply_signatures / apply_multiple_signatures)

These methods reference the name Inches, which services.py never imports
(see servicesImportedNames), so reaching an image insertion raises a
NameError.  The paired Option PyErr result carries the raised exception
together with the state already mutated before the raise: in the expression
paragraph.add_run().add_picture(path, width=Inches(2)) Python first calls
add_run (appending an empty run) and then evaluates Inches, so at the raise
the placeholder text is gone and one empty run has been appended. -/

def nameErrInches : PyErr := PyErr.nameError inchesLit

/-- Place a picture on the last run (run.add_picture with a two-inch
width); reached only under a counterfactual binding of Inches. -/
def setLastPicture (runs : List Run) (path : PyStr) : List Run :=
  mapLastRun (fun r => { r with picture := some (path, 2) }) runs

/-- The inner path loop of _replace_multiple_signatures_in_paragraph:
nonexistent paths are skipped silently; an existing path appends an empty
run via add_run() and then raises the NameError on Inches (the add_picture
and the following double-space run are dead code under the missing
import). -/
def insertSigImages (ex : PyStr → Bool) (paths : List PyStr) (runs : List Run) :
    List Run × Option PyErr :=
  match paths with
  | [] => (runs, none)
  | path :: rest =>
    if ex path then
      let runs1 := runs ++ [emptyRun]
      if inchesDefined then
        let runs2 := setLastPicture runs1 path ++ [plainRun [' ', ' ']]
        insertSigImages ex rest runs2
      else (runs1, some nameErrInches)
    else insertSigImages ex rest runs

/-- The run loop: clear the placeholder out of the first run containing it
(or report that no run contains it whole, in which case the loop falls
through without a break). -/
def removeFromFirstRun (ph : PyStr) : List Run → Option (List Run)
  | [] => none
  | r :: rs =>
    if pySubstr ph r.text then some ({ r with text := pyReplace r.text ph [] } :: rs)
    else ((removeFromFirstRun ph rs).map (r :: ·))

/-- Generic fold with Python exception propagation: the first raised error
aborts the traversal, keeping the state mutated so far. -/
def foldErr {α σ : Type} (f : σ → α → σ × Option PyErr) : σ → List α → σ × Option PyErr
  | s, [] => (s, none)
  | s, a :: as =>
    match f s a with
    | (s', some err) => (s', some err)
    | (s', none) => foldErr f s' as

/-- One signature_data item processed against one placeholder match
(services.py lines 397 to 428): keys with a numeric suffix match by prefix
against the variable name; keys without one match only by exact name. -/
def processMultiEntry (ex : PyStr → Bool) (c : PyStr) (p : Paragraph)
    (entry : PyStr × List PyStr) : Paragraph × Option PyErr :=
  let varName := contentName c
  let doInsert : Paragraph × Option PyErr :=
    match removeFromFirstRun (tokStr c) p.runs with
    | none => (p, none)
    | some runs1 =>
      let (runs2, e) := insertSigImages ex entry.2 runs1
      ({ p with runs := runs2 }, e)
  match pyMatchPfxNum entry.1 with
  | some (fpfx, _) =>
    match pyMatchPfxNum varName with
    | some (vpfx, _) => if vpfx = fpfx then doInsert else (p, none)
    | none => (p, none)
  | none => if entry.1 = varName then doInsert else (p, none)

/-- One placeholder match of _replace_multiple_signatures_in_paragraph:
only signature-typed placeholders are considered, and every signature_data
item is tried in dict order. -/
def processMultiMatch (ex : PyStr → Bool) (sigData : List (PyStr × List PyStr))
    (p : Paragraph) (c : PyStr) : Paragraph × Option PyErr :=
  if typeByPipe c = sigLit then foldErr (processMultiEntry ex c) p sigData
  else (p, none)

/-- DocumentGenerator._replace_multiple_signatures_in_paragraph.  The match
list is computed from the paragraph text on entry; runs are mutated as
matches are processed. -/
def replaceMultiSigInParagraph (ex : PyStr → Bool) (sigData : List (PyStr × List PyStr))
    (p : Paragraph) : Paragraph × Option PyErr :=
  foldErr (processMultiMatch ex sigData) p (findTok p.text)

/-- DocumentGenerator._replace_signature_in_paragraph: every signature-typed
placeholder found in the entry text is cleared from the first run containing
it and a picture insertion is attempted (raising on the unbound Inches). -/
def replaceSigInParagraph (sigPath : PyStr) (p : Paragraph) : Paragraph × Option PyErr :=
  let originalText := p.text
  foldErr (fun p c =>
    if typeByPipe c = sigLit ∧ pySubstr (tokStr c) originalText then
      match removeFromFirstRun (tokStr c) p.runs with
      | none => (p, none)
      | some runs1 =>
        let runs2 := runs1 ++ [emptyRun]
        if inchesDefined then ({ p with runs := setLastPicture runs2 sigPath }, none)
        else ({ p with runs := runs2 }, some nameErrInches)
    else (p, none)) p (findTok originalText)

/-- Walk the body paragraphs with exception propagation: paragraphs after a
raise stay untouched. -/
def mapParasErr (f : Paragraph → Paragraph × Option PyErr) :
    List Paragraph → List Paragraph × Option PyErr
  | [] => ([], none)
  | p :: ps =>
    match f p with
    | (p', some err) => (p' :: ps, some err)
    | (p', none) =>
      let (ps', e) := mapParasErr f ps
      (p' :: ps', e)

def mapTablesErr (f : Paragraph → Paragraph × Option PyErr) :
    List Table → List Table × Option PyErr
  | [] => ([], none)
  | t :: ts =>
    let (rows, e) := foldTableErr t
    match e with
    | some err => ((rows :: ts), some err)
    | none =>
      let (ts', e') := mapTablesErr f ts
      (rows :: ts', e')
where
  foldTableErr : Table → Table × Option PyErr
    | [] => ([], none)
    | row :: rows =>
      match foldRowErr row with
      | (row', some err) => (row' :: rows, some err)
      | (row', none) =>
        let (rows', e) := foldTableErr rows
        (row' :: rows', e)
  foldRowErr : Row → Row × Option PyErr
    | [] => ([], none)
    | cell :: cells =>
      match mapParasErr f cell with
      | (cell', some err) => (cell' :: cells, some err)
      | (cell', none) =>
        let (cells', e) := foldRowErr cells
        (cell' :: cells', e)

/-- Walk a whole document (body paragraphs, then table cells) with a
fallible paragraph transformation, aborting at the first raise. -/
def mapDocErr (f : Paragraph → Paragraph × Option PyErr) (doc : Document) :
    Document × Option PyErr :=
  match mapParasErr f doc.paragraphs with
  | (ps, some err) => ({ doc with paragraphs := ps }, some err)
  | (ps, none) =>
    let (ts, e) := mapTablesErr f doc.tables
    ({ doc with paragraphs := ps, tables := ts }, e)

/-- DocumentGenerator.apply_signatures: a falsy or nonexistent path returns
immediately; otherwise every paragraph is processed. -/
def applySignatures (ex : PyStr → Bool) (sigPath? : Option PyStr) (doc : Document) :
    Document × Option PyErr :=
  match sigPath? with
  | none => (doc, none)
  | some sp =>
    if sp = [] ∨ ¬ ex sp then (doc, none)
    else mapDocErr (replaceSigInParagraph sp) doc

/-- DocumentGenerator.apply_multiple_signatures: an empty mapping returns
immediately; otherwise every paragraph is processed. -/
def applyMultipleSignatures (ex : PyStr → Bool) (sigData : List (PyStr × List PyStr))
    (doc : Document) : Document × Option PyErr :=
  if sigData = [] then (doc, none)
  else mapDocErr (replaceMultiSigInParagraph ex sigData) doc

/-! ### Well-formed template texts

A template paragraph text is well formed when it is an alternation of
literal segments containing no brace characters and placeholder tokens
whose content contains no braces and no newline.  Real templates have this
shape; the substitution pass only guarantees token-free output on it (the
counterexamples for the round-trip claim show how overlapping brace
sequences defeat the paragraph-level string replacement). -/

inductive Piece where
  | lit (s : PyStr)
  | tok (c : PyStr)
deriving DecidableEq, Repr

def renderPieces : List Piece → PyStr
  | [] => []
  | .lit s :: ps => s ++ renderPieces ps
  | .tok c :: ps => tokStr c ++ renderPieces ps

def braceFree (s : PyStr) : Prop := '\x7b' ∉ s ∧ '\x7d' ∉ s

def tokOK (c : PyStr) : Prop := braceFree c ∧ '\n' ∉ c

def pieceWF : Piece → Prop
  | .lit s => braceFree s
  | .tok c => tokOK c

def toksOf : List Piece → List PyStr
  | [] => []
  | .lit _ :: ps => toksOf ps
  | .tok c :: ps => c :: toksOf ps

/-- Replace every token piece with a given content by a literal piece
holding the substituted value (the shape str.replace leaves behind on a
well-formed text). -/
def replaceTokPieces (c v : PyStr) : List Piece → List Piece
  | [] => []
  | .lit s :: ps => .lit s :: replaceTokPieces c v ps
  | .tok c' :: ps => (if c' = c then .lit v else .tok c') :: replaceTokPieces c v ps

/-- Hypotheses of the round-trip claim on one paragraph text: well formed,
no signature-typed placeholder, and every placeholder name is a key of the
input data. -/
def wfParaText (data : List (PyStr × PyStr)) (t : PyStr) : Prop :=
  ∃ ps, t = renderPieces ps ∧ (∀ pc ∈ ps, pieceWF pc) ∧
    ∀ c, Piece.tok c ∈ ps → typeByLen c ≠ sigLit ∧ (pyDictGet? data (contentName c)).isSome

/-- Input-data values that neither contain braces nor route the paragraph
through the rich-text formatter (no value holding both angle brackets). -/
def valuesSafe (data : List (PyStr × PyStr)) : Prop :=
  ∀ kv ∈ data, braceFree kv.2 ∧
    ¬(pySubstr ['<'] kv.2 = true ∧ pySubstr ['>'] kv.2 = true)

/-! ### Inputs of the name-field linkage claim -/

/-- The placeholder content name|signature|label used by the linkage claim. -/
def sigTokContent (vs lb : PyStr) : PyStr := vs ++ '|' :: (sigLit ++ '|' :: lb)

/-- The placeholder content name|text||autofilled used by the linkage claim. -/
def nameTokContent (vn : PyStr) : PyStr := vn ++ '|' :: (textLit ++ '|' :: '|' :: autofilledLit)

/-- A one-paragraph document whose text is two adjacent placeholders. -/
def twoTokDoc (c1 c2 : PyStr) : Document :=
  { paragraphs := [{ runs := [plainRun (tokStr c1 ++ tokStr c2)], styleName := [] }],
    tables := [] }

def c6SigName : PyStr := ['r','e','q','u','e','s','t','e','r','_','1']

def c6NameName : PyStr := ['r','e','q','u','e','s','t','e','r','_','1','_','n','a','m','e']

def c6Label : PyStr := ['R','e','q']

def c6Pfx : PyStr := ['r','e','q','u','e','s','t','e','r']

/-! ## Helper lemmas -/

theorem chompLeft_length : ∀ {n s r : PyStr}, chompLeft n s = some r → n.length + r.length = s.length := by
  intro n
  induction n with
  | nil =>
    intro s r h
    simp only [chompLeft, Option.some.injEq] at h
    simp [h]
  | cons a as ih =>
    intro s r h
    cases s with
    | nil => simp [chompLeft] at h
    | cons b bs =>
      simp only [chompLeft] at h
      by_cases hab : a = b
      · rw [if_pos hab] at h
        have := ih h
        simp only [List.length_cons]
        omega
      · rw [if_neg hab] at h
        exact absurd h (by simp)

theorem chompLeft_self : ∀ (x t : PyStr), chompLeft x (x ++ t) = some t := by
  intro x t
  induction x with
  | nil => rfl
  | cons a as ih => simp [chompLeft, ih]

theorem chompLeft_head_ne {a b : Char} (h : a ≠ b) (as bs : PyStr) :
    chompLeft (a :: as) (b :: bs) = none := by
  simp [chompLeft, h]

theorem replFuel_congr {old new : PyStr} (hold : old ≠ []) :
    ∀ f g s, s.length ≤ f → s.length ≤ g →
      pyReplaceFuel old new f s = pyReplaceFuel old new g s := by
  intro f
  induction f with
  | zero =>
    intro g s hf _
    have : s = [] := List.eq_nil_of_length_eq_zero (Nat.le_zero.mp hf)
    subst this
    cases g <;> simp [pyReplaceFuel]
  | succ f ih =>
    intro g s hf hg
    cases s with
    | nil => cases g <;> simp [pyReplaceFuel]
    | cons a rest =>
      cases g with
      | zero => simp at hg
      | succ g' =>
        simp only [pyReplaceFuel]
        cases h : chompLeft old (a :: rest) with
        | none =>
          simp only [List.length_cons] at hf hg
          have hr : rest.length ≤ f := by omega
          have hg2 : rest.length ≤ g' := by omega
          dsimp only
          rw [ih g' rest hr hg2]
        | some r =>
          have hlen := chompLeft_length h
          have h1 : 1 ≤ old.length := by
            cases old with
            | nil => exact absurd rfl hold
            | cons _ _ => simp
          simp only [List.length_cons] at hf hg hlen
          have hr : r.length ≤ f := by omega
          have hg2 : r.length ≤ g' := by omega
          dsimp only
          rw [ih g' r hr hg2]

theorem pyReplace_nil {old new : PyStr} (hold : old ≠ []) : pyReplace [] old new = [] := by
  cases old with
  | nil => exact absurd rfl hold
  | cons a as => simp [pyReplace, pyReplaceFuel]

theorem pyReplace_cons_pos {old new : PyStr} (hold : old ≠ [])
    {a : Char} {s r : PyStr} (h : chompLeft old (a :: s) = some r) :
    pyReplace (a :: s) old new = new ++ pyReplace r old new := by
  have hne : old.isEmpty = false := by
    cases old with
    | nil => exact absurd rfl hold
    | cons _ _ => rfl
  have hlen := chompLeft_length h
  have h1 : 1 ≤ old.length := by
    cases old with
    | nil => exact absurd rfl hold
    | cons _ _ => simp
  simp only [List.length_cons] at hlen
  simp only [pyReplace, hne, Bool.false_eq_true, if_false, List.length_cons]
  simp only [pyReplaceFuel, h]
  congr 1
  exact replFuel_congr hold s.length r.length r (by omega) (le_refl _)

theorem pyReplace_cons_neg {old new : PyStr} (hold : old ≠ [])
    {a : Char} {s : PyStr} (h : chompLeft old (a :: s) = none) :
    pyReplace (a :: s) old new = a :: pyReplace s old new := by
  have hne : old.isEmpty = false := by
    cases old with
    | nil => exact absurd rfl hold
    | cons _ _ => rfl
  simp only [pyReplace, hne, Bool.false_eq_true, if_false, List.length_cons]
  simp only [pyReplaceFuel, h]

theorem findTokGo_out_skip (L : PyStr) :
    ∀ x : PyStr, '\x7b' ∉ x → findTokGo .out (x ++ L) = findTokGo .out L := by
  intro x
  induction x with
  | nil => intro _; rfl
  | cons a x' ih =>
    intro hx
    have ha : a ≠ '\x7b' := by intro h; exact hx (by simp [h])
    have hx' : '\x7b' ∉ x' := by intro h; exact hx (by simp [h])
    simpa [findTokGo, ha] using ih hx'

theorem findTokGo_ins_content (L : PyStr) :
    ∀ (cc acc : PyStr), '\x7d' ∉ cc → '\n' ∉ cc →
      findTokGo (.ins acc) (cc ++ '\x7d' :: '\x7d' :: L)
        = (acc.reverse ++ cc) :: findTokGo .out L := by
  intro cc
  induction cc with
  | nil => intro acc _ _; simp [findTokGo]
  | cons y cc' ih =>
    intro acc hy hn
    have h1 : y ≠ '\x7d' := by intro h; exact hy (by simp [h])
    have h2 : y ≠ '\n' := by intro h; exact hn (by simp [h])
    have hy' : '\x7d' ∉ cc' := by intro h; exact hy (by simp [h])
    have hn' : '\n' ∉ cc' := by intro h; exact hn (by simp [h])
    simpa [findTokGo, h1, h2] using ih (y :: acc) hy' hn'

theorem findTokGo_render :
    ∀ (ps : List Piece), (∀ pc ∈ ps, pieceWF pc) →
      ∀ L, findTokGo .out (renderPieces ps ++ L) = toksOf ps ++ findTokGo .out L := by
  intro ps
  induction ps with
  | nil => intro _ L; rfl
  | cons pc ps' ih =>
    intro hWF L
    have hWF' : ∀ q ∈ ps', pieceWF q := fun q hq => hWF q (by simp [hq])
    cases pc with
    | lit s =>
      have hs : braceFree s := hWF (.lit s) (by simp)
      simp only [renderPieces, toksOf, List.append_assoc]
      rw [findTokGo_out_skip _ s hs.1, ih hWF' L]
    | tok c =>
      have hc : tokOK c := hWF (.tok c) (by simp)
      simp only [renderPieces, toksOf, tokStr, List.cons_append, List.append_assoc,
        List.nil_append]
      have step : findTokGo .out ('\x7b' :: '\x7b' :: (c ++ ('\x7d' :: '\x7d' :: (renderPieces ps' ++ L))))
          = findTokGo (.ins []) (c ++ ('\x7d' :: '\x7d' :: (renderPieces ps' ++ L))) := by
        simp [findTokGo]
      rw [step, findTokGo_ins_content _ c [] hc.1.2 hc.2, ih hWF' L]
      simp

theorem findTok_renderPieces (ps : List Piece) (hWF : ∀ pc ∈ ps, pieceWF pc) :
    findTok (renderPieces ps) = toksOf ps := by
  have := findTokGo_render ps hWF []
  simpa [findTok, findTokGo] using this

theorem findTok_of_braceFree {s : PyStr} (h : '\x7b' ∉ s) : findTok s = [] := by
  have := findTokGo_out_skip [] s h
  simpa [findTok] using this

theorem tokStr_ne_nil (c : PyStr) : tokStr c ≠ [] := by simp [tokStr]

theorem tokStr_injective {c c' : PyStr} (h : tokStr c = tokStr c') : c = c' := by
  simp only [tokStr, List.cons.injEq, true_and] at h
  exact List.append_left_inj _ |>.mp h

theorem brace_mem_tokStr (c : PyStr) : '\x7b' ∈ tokStr c := by simp [tokStr]

theorem chompLeft_close_mismatch :
    ∀ (c c' t : PyStr), braceFree c → braceFree c' → c ≠ c' →
      chompLeft (c ++ ['\x7d', '\x7d']) (c' ++ '\x7d' :: '\x7d' :: t) = none := by
  intro c
  induction c with
  | nil =>
    intro c' t _ hbf' hne
    cases c' with
    | nil => exact absurd rfl hne
    | cons x c'' =>
      have hx : x ≠ '\x7d' := fun h => hbf'.2 (by simp [h])
      simpa using chompLeft_head_ne (fun h => hx h.symm) _ _
  | cons a cr ih =>
    intro c' t hbf hbf' hne
    have ha : a ≠ '\x7d' := fun h => hbf.2 (by simp [h])
    cases c' with
    | nil => simpa using chompLeft_head_ne ha _ _
    | cons b cr' =>
      by_cases hab : a = b
      · subst hab
        have h1 : braceFree cr := ⟨fun h => hbf.1 (by simp [h]), fun h => hbf.2 (by simp [h])⟩
        have h2 : braceFree cr' := ⟨fun h => hbf'.1 (by simp [h]), fun h => hbf'.2 (by simp [h])⟩
        have h3 : cr ≠ cr' := fun h => hne (by simp [h])
        simpa [chompLeft] using ih cr' t h1 h2 h3
      · simpa using chompLeft_head_ne hab _ _

theorem chompLeft_tok_tok_ne {c c' : PyStr} (t : PyStr)
    (hbf : braceFree c) (hbf' : braceFree c') (hne : c ≠ c') :
    chompLeft (tokStr c) (tokStr c' ++ t) = none := by
  simp only [tokStr, List.cons_append, List.append_assoc, List.nil_append, chompLeft,
    if_pos rfl]
  simpa using chompLeft_close_mismatch c c' t hbf hbf' hne

theorem chompLeft_tok_inner {c c' : PyStr} (t : PyStr) (hbf' : braceFree c') :
    chompLeft (tokStr c) ('\x7b' :: (c' ++ '\x7d' :: '\x7d' :: t)) = none := by
  simp only [tokStr, chompLeft, if_pos rfl]
  cases c' with
  | nil => simp [chompLeft]
  | cons x c'' =>
    have hx : x ≠ '\x7b' := fun h => hbf'.1 (by simp [h])
    simpa [chompLeft] using chompLeft_head_ne (fun h => hx h.symm) _ _

theorem replace_lit_skip {c v : PyStr} :
    ∀ (x t : PyStr), '\x7b' ∉ x →
      pyReplace (x ++ t) (tokStr c) v = x ++ pyReplace t (tokStr c) v := by
  intro x
  induction x with
  | nil => intro t _; rfl
  | cons a x' ih =>
    intro t hx
    have ha : a ≠ '\x7b' := fun h => hx (by simp [h])
    have hx' : '\x7b' ∉ x' := fun h => hx (by simp [h])
    have hch : chompLeft (tokStr c) (a :: (x' ++ t)) = none := by
      simpa [tokStr] using chompLeft_head_ne (fun h => ha h.symm) _ _
    rw [List.cons_append, pyReplace_cons_neg (tokStr_ne_nil c) hch, ih t hx']
    simp

theorem replace_tok_match {c : PyStr} (v t : PyStr) :
    pyReplace (tokStr c ++ t) (tokStr c) v = v ++ pyReplace t (tokStr c) v := by
  have hsh : tokStr c ++ t = '\x7b' :: ('\x7b' :: (c ++ '\x7d' :: '\x7d' :: t)) := by
    simp [tokStr]
  have h : chompLeft (tokStr c) ('\x7b' :: ('\x7b' :: (c ++ '\x7d' :: '\x7d' :: t)))
      = some t := by
    rw [← hsh]; exact chompLeft_self _ _
  rw [hsh]
  exact pyReplace_cons_pos (tokStr_ne_nil c) h

theorem replace_tok_mismatch {c c' : PyStr} (v t : PyStr)
    (hc : tokOK c) (hc' : tokOK c') (hne : c' ≠ c) :
    pyReplace (tokStr c' ++ t) (tokStr c) v = tokStr c' ++ pyReplace t (tokStr c) v := by
  have hsh : tokStr c' ++ t
      = '\x7b' :: ('\x7b' :: ((c' ++ ['\x7d', '\x7d']) ++ t)) := by
    simp [tokStr]
  have h0 : chompLeft (tokStr c) ('\x7b' :: ('\x7b' :: ((c' ++ ['\x7d', '\x7d']) ++ t)))
      = none := by
    have := chompLeft_tok_tok_ne t hc.1 hc'.1 (fun h => hne h.symm)
    simpa [tokStr, List.cons_append, List.append_assoc] using this
  have h1 : chompLeft (tokStr c) ('\x7b' :: ((c' ++ ['\x7d', '\x7d']) ++ t)) = none := by
    have := chompLeft_tok_inner (c := c) t hc'.1
    simpa [List.append_assoc] using this
  have h2 : '\x7b' ∉ c' ++ ['\x7d', '\x7d'] := by
    intro hmem
    rcases List.mem_append.mp hmem with hmem | hmem
    · exact hc'.1.1 hmem
    · simp at hmem
  rw [hsh, pyReplace_cons_neg (tokStr_ne_nil c) h0,
    pyReplace_cons_neg (tokStr_ne_nil c) h1, replace_lit_skip _ t h2]
  simp [tokStr]

theorem pieceWF_replaceTok {c v : PyStr} (hv : braceFree v) :
    ∀ qs : List Piece, (∀ pc ∈ qs, pieceWF pc) →
      ∀ pc ∈ replaceTokPieces c v qs, pieceWF pc := by
  intro qs
  induction qs with
  | nil => intro _ pc h; simp [replaceTokPieces] at h
  | cons q qs' ih =>
    intro hWF pc hmem
    have hq := hWF q (by simp)
    have hWF' : ∀ x ∈ qs', pieceWF x := fun x hx => hWF x (by simp [hx])
    cases q with
    | lit s =>
      rcases (by simpa [replaceTokPieces] using hmem :
        pc = Piece.lit s ∨ pc ∈ replaceTokPieces c v qs') with h | h
      · subst h; exact hq
      · exact ih hWF' pc h
    | tok c' =>
      rcases (by simpa [replaceTokPieces] using hmem :
        pc = (if c' = c then Piece.lit v else Piece.tok c') ∨ pc ∈ replaceTokPieces c v qs') with h | h
      · subst h
        by_cases hcc : c' = c
        · simp [hcc, pieceWF]; exact hv
        · simpa [hcc, pieceWF] using hq
      · exact ih hWF' pc h

theorem tok_mem_replaceTok {c v d : PyStr} :
    ∀ qs : List Piece, Piece.tok d ∈ replaceTokPieces c v qs →
      Piece.tok d ∈ qs ∧ d ≠ c := by
  intro qs
  induction qs with
  | nil => intro h; simp [replaceTokPieces] at h
  | cons q qs' ih =>
    intro hmem
    cases q with
    | lit s =>
      rcases (by simpa [replaceTokPieces] using hmem :
        Piece.tok d = Piece.lit s ∨ Piece.tok d ∈ replaceTokPieces c v qs') with h | h
      · cases h
      · have := ih h; exact ⟨by simp [this.1], this.2⟩
    | tok c' =>
      rcases (by simpa [replaceTokPieces] using hmem :
        Piece.tok d = (if c' = c then Piece.lit v else Piece.tok c')
          ∨ Piece.tok d ∈ replaceTokPieces c v qs') with h | h
      · by_cases hcc : c' = c
        · rw [if_pos hcc] at h; cases h
        · rw [if_neg hcc] at h
          have hd : d = c' := by cases h; rfl
          exact ⟨by simp [hd], hd ▸ hcc⟩
      · have := ih h; exact ⟨List.mem_cons_of_mem _ this.1, this.2⟩

theorem replace_render {c v : PyStr} (hc : tokOK c) :
    ∀ qs : List Piece, (∀ pc ∈ qs, pieceWF pc) →
      pyReplace (renderPieces qs) (tokStr c) v
        = renderPieces (replaceTokPieces c v qs) := by
  intro qs
  induction qs with
  | nil => simpa [renderPieces, replaceTokPieces] using pyReplace_nil (tokStr_ne_nil c)
  | cons q qs' ih =>
    intro hWF
    have hWF' : ∀ x ∈ qs', pieceWF x := fun x hx => hWF x (by simp [hx])
    cases q with
    | lit s =>
      have hs : braceFree s := hWF (.lit s) (by simp)
      simp only [renderPieces, replaceTokPieces]
      rw [replace_lit_skip _ _ hs.1, ih hWF']
    | tok c' =>
      have hc' : tokOK c' := hWF (.tok c') (by simp)
      by_cases hcc : c' = c
      · subst hcc
        simp only [renderPieces, replaceTokPieces, if_pos rfl]
        rw [replace_tok_match, ih hWF']
      · simp only [renderPieces, replaceTokPieces, if_neg hcc]
        rw [replace_tok_mismatch _ _ hc hc' hcc, ih hWF']

theorem braceFree_append {x y : PyStr} (hx : braceFree x) (hy : braceFree y) :
    braceFree (x ++ y) := by
  constructor
  · intro h; rcases List.mem_append.mp h with h | h
    · exact hx.1 h
    · exact hy.1 h
  · intro h; rcases List.mem_append.mp h with h | h
    · exact hx.2 h
    · exact hy.2 h

theorem render_all_lit_braceFree :
    ∀ qs : List Piece, (∀ pc ∈ qs, pieceWF pc) → (∀ d, Piece.tok d ∉ qs) →
      braceFree (renderPieces qs) := by
  intro qs
  induction qs with
  | nil => intro _ _; exact ⟨by simp [renderPieces], by simp [renderPieces]⟩
  | cons q qs' ih =>
    intro hWF hnt
    cases q with
    | lit s =>
      have hs : braceFree s := hWF (.lit s) (by simp)
      have := ih (fun x hx => hWF x (by simp [hx])) (fun d hd => hnt d (by simp [hd]))
      simpa [renderPieces] using braceFree_append hs this
    | tok c => exact absurd (by simp : Piece.tok c ∈ Piece.tok c :: qs') (hnt c)

theorem brace_mem_render_of_tok {d : PyStr} :
    ∀ qs : List Piece, Piece.tok d ∈ qs → '\x7b' ∈ renderPieces qs := by
  intro qs
  induction qs with
  | nil => intro h; simp at h
  | cons q qs' ih =>
    intro hmem
    cases q with
    | lit s =>
      have : Piece.tok d ∈ qs' := by simpa using hmem
      simp [renderPieces, ih this]
    | tok c => simp [renderPieces, tokStr]

theorem toksOf_mem : ∀ (qs : List Piece) (c : PyStr), c ∈ toksOf qs ↔ Piece.tok c ∈ qs := by
  intro qs c
  induction qs with
  | nil => simp [toksOf]
  | cons q qs' ih =>
    cases q with
    | lit s => simp [toksOf, ih]
    | tok c' => simp [toksOf, ih, List.mem_cons]

theorem pyDictInsert_mem {d : List (PyStr × PyStr)} {k v : PyStr} {kv : PyStr × PyStr}
    (h : kv ∈ pyDictInsert d k v) : kv ∈ d ∨ kv = (k, v) := by
  unfold pyDictInsert at h
  by_cases hc : d.any (fun kv => decide (kv.1 = k))
  · rw [if_pos hc] at h
    rcases List.mem_map.mp h with ⟨kv', hkv', heq⟩
    by_cases hk : kv'.1 = k
    · right; rw [if_pos hk] at heq; exact heq.symm
    · left; rw [if_neg hk] at heq; exact heq ▸ hkv'
  · rw [if_neg hc] at h
    rcases List.mem_append.mp h with h | h
    · exact Or.inl h
    · right; simpa using h

theorem pyDictInsert_key_mem (d : List (PyStr × PyStr)) (k v : PyStr) :
    k ∈ (pyDictInsert d k v).map Prod.fst := by
  unfold pyDictInsert
  by_cases hc : d.any (fun kv => decide (kv.1 = k))
  · rw [if_pos hc]
    rcases List.any_eq_true.mp hc with ⟨kv, hkv, hk⟩
    have hk' : kv.1 = k := of_decide_eq_true hk
    have h1 : (k, v) ∈ d.map (fun kv => if kv.1 = k then (k, v) else kv) :=
      List.mem_map.mpr ⟨kv, hkv, by rw [if_pos hk']⟩
    exact List.mem_map.mpr ⟨(k, v), h1, rfl⟩
  · rw [if_neg hc]; simp

theorem pyDictInsert_keys_sub {d : List (PyStr × PyStr)} {k' : PyStr} (k v : PyStr)
    (h : k' ∈ d.map Prod.fst) : k' ∈ (pyDictInsert d k v).map Prod.fst := by
  unfold pyDictInsert
  by_cases hc : d.any (fun kv => decide (kv.1 = k))
  · rw [if_pos hc]
    rcases List.mem_map.mp h with ⟨kv, hkv, hfst⟩
    by_cases hk : kv.1 = k
    · have h1 : (k, v) ∈ d.map (fun kv => if kv.1 = k then (k, v) else kv) :=
        List.mem_map.mpr ⟨kv, hkv, by rw [if_pos hk]⟩
      exact List.mem_map.mpr ⟨(k, v), h1, by simp [← hfst, hk]⟩
    · have h1 : kv ∈ d.map (fun kv => if kv.1 = k then (k, v) else kv) :=
        List.mem_map.mpr ⟨kv, hkv, by rw [if_neg hk]⟩
      exact List.mem_map.mpr ⟨kv, h1, hfst⟩
  · rw [if_neg hc]
    rcases List.mem_map.mp h with ⟨kv, hkv, hfst⟩
    exact List.mem_map.mpr ⟨kv, List.mem_append_left _ hkv, hfst⟩

theorem foldl_replStep_mem {data : List (PyStr × PyStr)} :
    ∀ (ms : List PyStr) (acc : List (PyStr × PyStr)) (kv : PyStr × PyStr),
      kv ∈ ms.foldl (replStep data) acc →
      kv ∈ acc ∨ ∃ c, c ∈ ms ∧ replValue data c = some kv.2 ∧ kv.1 = tokStr c := by
  intro ms
  induction ms with
  | nil => intro acc kv h; exact Or.inl h
  | cons c ms' ih =>
    intro acc kv h
    rw [List.foldl_cons] at h
    rcases ih (replStep data acc c) kv h with h1 | ⟨c', hc', hrv, hk⟩
    · unfold replStep at h1
      cases hrv : replValue data c with
      | none => rw [hrv] at h1; exact Or.inl h1
      | some v =>
        rw [hrv] at h1
        rcases pyDictInsert_mem h1 with h2 | h2
        · exact Or.inl h2
        · right
          refine ⟨c, List.mem_cons_self _ _, ?_, by rw [h2]⟩
          rw [hrv, h2]
    · exact Or.inr ⟨c', List.mem_cons_of_mem _ hc', hrv, hk⟩

theorem foldl_replStep_keys {data : List (PyStr × PyStr)} :
    ∀ (ms : List PyStr) (acc : List (PyStr × PyStr)) (k : PyStr),
      k ∈ acc.map Prod.fst → k ∈ (ms.foldl (replStep data) acc).map Prod.fst := by
  intro ms
  induction ms with
  | nil => intro acc k h; exact h
  | cons c ms' ih =>
    intro acc k h
    rw [List.foldl_cons]
    apply ih
    unfold replStep
    cases hrv : replValue data c with
    | none => exact h
    | some v => exact pyDictInsert_keys_sub _ _ h

theorem buildRepl_covers {data : List (PyStr × PyStr)} :
    ∀ (ms : List PyStr) (acc : List (PyStr × PyStr)) (c : PyStr), c ∈ ms →
      (replValue data c).isSome →
      tokStr c ∈ (ms.foldl (replStep data) acc).map Prod.fst := by
  intro ms
  induction ms with
  | nil => intro _ _ h; exact absurd h (List.not_mem_nil _)
  | cons c' ms' ih =>
    intro acc c hc hsome
    rw [List.foldl_cons]
    rcases List.mem_cons.mp hc with h | h
    · subst h
      apply foldl_replStep_keys
      unfold replStep
      cases hrv : replValue data c with
      | none => rw [hrv] at hsome; simp at hsome
      | some v => exact pyDictInsert_key_mem _ _ _
    · exact ih _ c h hsome

theorem pyDictGet?_mem {data : List (PyStr × PyStr)} {k v : PyStr}
    (h : pyDictGet? data k = some v) : ∃ kv ∈ data, kv.2 = v := by
  unfold pyDictGet? at h
  cases hf : data.find? (fun kv => decide (kv.1 = k)) with
  | none => rw [hf] at h; cases h
  | some kv =>
    rw [hf] at h
    exact ⟨kv, List.mem_of_find?_eq_some hf, by injection h⟩

theorem replValue_safe {data : List (PyStr × PyStr)} (hv : valuesSafe data)
    {c v : PyStr} (h : replValue data c = some v) :
    braceFree v ∧ ¬(pySubstr ['<'] v = true ∧ pySubstr ['>'] v = true) := by
  unfold replValue at h
  by_cases hty : typeByLen c = sigLit
  · rw [if_pos hty] at h; cases h
  · rw [if_neg hty] at h
    cases hg : pyDictGet? data (contentName c) with
    | none =>
      rw [hg] at h
      have hve : v = [] := by injection h with h; exact h.symm
      subst hve
      exact ⟨⟨by simp, by simp⟩, by decide⟩
    | some v0 =>
      rw [hg] at h
      have hve : (if pySubstr checkboxLit (pyLower c) = true then checkboxValue v0 else v0)
          = v := by injection h
      by_cases hchk : pySubstr checkboxLit (pyLower c) = true
      · rw [if_pos hchk] at hve
        rw [← hve]
        unfold checkboxValue
        split <;> exact ⟨⟨by decide, by decide⟩, by decide⟩
      · rw [if_neg hchk] at hve
        rw [← hve]
        rcases pyDictGet?_mem hg with ⟨kv, hkv, hv2⟩
        exact hv2 ▸ hv kv hkv

theorem replValue_isSome {data : List (PyStr × PyStr)} {c : PyStr}
    (hty : typeByLen c ≠ sigLit) (hmem : (pyDictGet? data (contentName c)).isSome) :
    (replValue data c).isSome := by
  unfold replValue
  rw [if_neg hty]
  cases hg : pyDictGet? data (contentName c) with
  | none => rw [hg] at hmem; simp at hmem
  | some v0 => simp

theorem applyReplacements_cons (t : PyStr) (kv : PyStr × PyStr) (E : List (PyStr × PyStr)) :
    applyReplacements t (kv :: E) = applyReplacements (pyReplace t kv.1 kv.2) E := rfl

theorem applyRepl_braceFree :
    ∀ (E : List (PyStr × PyStr)) (qs : List Piece),
      (∀ pc ∈ qs, pieceWF pc) →
      (∀ e ∈ E, (∃ c, e.1 = tokStr c ∧ tokOK c) ∧ braceFree e.2) →
      (∀ c, Piece.tok c ∈ qs → tokStr c ∈ E.map Prod.fst) →
      braceFree (applyReplacements (renderPieces qs) E) := by
  intro E
  induction E with
  | nil =>
    intro qs hWF _ hcov
    have hnt : ∀ d, Piece.tok d ∉ qs := by
      intro d hd
      simpa using hcov d hd
    exact render_all_lit_braceFree qs hWF hnt
  | cons e E' ih =>
    intro qs hWF hent hcov
    rcases (hent e (by simp)).1 with ⟨c₀, hk, hc₀⟩
    have hbv : braceFree e.2 := (hent e (by simp)).2
    rw [applyReplacements_cons, hk, replace_render hc₀ qs hWF]
    apply ih
    · exact pieceWF_replaceTok hbv qs hWF
    · intro e' he'; exact hent e' (by simp [he'])
    · intro c hc
      rcases tok_mem_replaceTok _ hc with ⟨hmem, hne⟩
      rcases List.mem_cons.mp ((List.mem_map.mp (hcov c hmem)).choose_spec.1) with h | h
      · exact absurd (by
          have hspec := (List.mem_map.mp (hcov c hmem)).choose_spec
          have : tokStr c = e.1 := by rw [← hspec.2, h]
          exact tokStr_injective (this.trans hk)) hne
      · have hspec := (List.mem_map.mp (hcov c hmem)).choose_spec
        exact List.mem_map.mpr ⟨_, h, hspec.2⟩

theorem text_single_run (t st : PyStr) :
    Paragraph.text { runs := [plainRun t], styleName := st } = t := by
  simp [Paragraph.text, concatAll, plainRun]

theorem text_no_runs (st : PyStr) :
    Paragraph.text { runs := [], styleName := st } = [] := rfl

/-- Core of the round-trip claim for one paragraph: on a well-formed text
whose placeholders are all non-signature and all covered by the data, with
brace-free non-HTML values, the substitution pass leaves no placeholder
token in the paragraph text. -/
theorem replaceInParagraph_token_free (tokenize : PyStr → List HEvent)
    (data : List (PyStr × PyStr)) (p : Paragraph)
    (hwf : wfParaText data p.text) (hv : valuesSafe data) :
    findTok (Paragraph.text (replaceInParagraph tokenize data p)) = [] := by
  obtain ⟨ps, htext, hWF, htoks⟩ := hwf
  have hms : findTok p.text = toksOf ps := by
    rw [htext]; exact findTok_renderPieces ps hWF
  by_cases h0 : findTok p.text = []
  · simp only [replaceInParagraph]
    rw [if_pos h0]
    exact h0
  · have h0' : toksOf ps ≠ [] := by rw [← hms]; exact h0
    have hsome : ∀ c ∈ toksOf ps, (replValue data c).isSome := by
      intro c hc
      have hmem := (toksOf_mem ps c).mp hc
      exact replValue_isSome (htoks c hmem).1 (htoks c hmem).2
    simp only [replaceInParagraph]
    rw [if_neg h0]
    set E := buildReplacements data (findTok p.text) with hE
    have hEmem : ∀ kv ∈ E, ∃ c, c ∈ toksOf ps ∧ replValue data c = some kv.2 ∧ kv.1 = tokStr c := by
      intro kv hkv
      rw [hE, buildReplacements, hms] at hkv
      rcases foldl_replStep_mem _ _ _ hkv with h | h
      · exact absurd h (List.not_mem_nil _)
      · exact h
    have hent : ∀ e ∈ E, (∃ c, e.1 = tokStr c ∧ tokOK c) ∧ braceFree e.2 := by
      intro e he
      rcases hEmem e he with ⟨c, hc, hrv, hk⟩
      have hcWF : pieceWF (Piece.tok c) := hWF _ ((toksOf_mem ps c).mp hc)
      exact ⟨⟨c, hk, hcWF⟩, (replValue_safe hv hrv).1⟩
    have hcov : ∀ c, Piece.tok c ∈ ps → tokStr c ∈ E.map Prod.fst := by
      intro c hc
      rw [hE, buildReplacements, hms]
      exact buildRepl_covers _ _ _ ((toksOf_mem ps c).mpr hc) (hsome c ((toksOf_mem ps c).mpr hc))
    have hEne : E ≠ [] := by
      rcases List.exists_mem_of_ne_nil _ h0' with ⟨c, hc⟩
      intro hEnil
      have := hcov c ((toksOf_mem ps c).mp hc)
      rw [hEnil] at this
      exact absurd this (List.not_mem_nil _)
    have hbf : braceFree (applyReplacements p.text E) := by
      rw [htext]
      exact applyRepl_braceFree E ps hWF hent hcov
    have hneq : ¬ (applyReplacements p.text E = p.text) := by
      intro heq
      have hbrace : '\x7b' ∈ p.text := by
        rw [htext]
        rcases List.exists_mem_of_ne_nil _ h0' with ⟨c, hc⟩
        exact brace_mem_render_of_tok ps ((toksOf_mem ps c).mp hc)
      rw [← heq] at hbrace
      exact hbf.1 hbrace
    have hhtml : hasHtmlValues E = false := by
      unfold hasHtmlValues
      rw [List.any_eq_false]
      intro kv hkv
      rcases hEmem kv hkv with ⟨c, _, hrv, _⟩
      have hsafe := (replValue_safe hv hrv).2
      simp only [Bool.and_eq_true]
      exact hsafe
    rw [if_neg hEne, if_neg hneq, hhtml]
    simp only [Bool.false_eq_true, if_false]
    by_cases hnil : applyReplacements p.text E = []
    · rw [if_pos hnil]
      exact findTok_of_braceFree (by rw [text_no_runs]; exact fun h => (List.not_mem_nil _) h)
    · rw [if_neg hnil]
      rw [text_single_run]
      exact findTok_of_braceFree hbf.1

theorem flatMapAll_map {α β γ : Type} (g : β → List γ) (h : α → β) :
    ∀ l : List α, flatMapAll g (l.map h) = flatMapAll (fun a => g (h a)) l := by
  intro l
  induction l with
  | nil => rfl
  | cons a l' ih => simp [flatMapAll, ih]

theorem flatMapAll_map_out {α β γ : Type} (g : α → List β) (f : β → γ) :
    ∀ l : List α, flatMapAll (fun a => (g a).map f) l = (flatMapAll g l).map f := by
  intro l
  induction l with
  | nil => rfl
  | cons a l' ih => simp [flatMapAll, ih]

theorem flatMapAll_congr {α β : Type} {g g' : α → List β} :
    ∀ l : List α, (∀ a ∈ l, g a = g' a) → flatMapAll g l = flatMapAll g' l := by
  intro l
  induction l with
  | nil => intro _; rfl
  | cons a l' ih =>
    intro h
    simp only [flatMapAll, h a (by simp), ih (fun x hx => h x (by simp [hx]))]

theorem docCellParas_map (f : Paragraph → Paragraph) (doc : Document) :
    docCellParas (mapDocParas f doc) = (docCellParas doc).map f := by
  unfold docCellParas mapDocParas
  rw [flatMapAll_map]
  rw [@flatMapAll_congr _ _ _
    (fun t => (flatMapAll (fun row => flatMapAll id row) t).map f) doc.tables]
  · exact flatMapAll_map_out _ f _
  · intro t _
    rw [flatMapAll_map]
    rw [@flatMapAll_congr _ _ _ (fun row => (flatMapAll id row).map f) t]
    · exact flatMapAll_map_out _ f _
    · intro row _
      rw [flatMapAll_map]
      exact flatMapAll_map_out id f row

theorem docTexts_mapDocParas (f : Paragraph → Paragraph) (doc : Document) :
    docTexts (mapDocParas f doc)
      = ((doc.paragraphs ++ docCellParas doc).map f).map Paragraph.text := by
  unfold docTexts
  have h1 : (mapDocParas f doc).paragraphs = doc.paragraphs.map f := rfl
  rw [h1, docCellParas_map]
  simp [List.map_append]

theorem pyReplace_braceFree {c v b : PyStr} (hb : '\x7b' ∉ b) :
    pyReplace b (tokStr c) v = b := by
  have h := replace_lit_skip (c := c) (v := v) b [] hb
  rw [List.append_nil] at h
  rw [h, pyReplace_nil (tokStr_ne_nil c), List.append_nil]

theorem replace_single {a b c v : PyStr} (ha : '\x7b' ∉ a) (hb : '\x7b' ∉ b) :
    pyReplace (a ++ (tokStr c ++ b)) (tokStr c) v = a ++ (v ++ b) := by
  rw [replace_lit_skip a _ ha, replace_tok_match, pyReplace_braceFree hb]

theorem findTok_single {a b c : PyStr} (ha : braceFree a) (hb : braceFree b) (hc : tokOK c) :
    findTok (a ++ (tokStr c ++ b)) = [c] := by
  have h : a ++ (tokStr c ++ b) = renderPieces [Piece.lit a, Piece.tok c, Piece.lit b] := by
    simp [renderPieces]
  rw [h, findTok_renderPieces]
  · rfl
  · intro pc hpc
    rcases List.mem_cons.mp hpc with h1 | hpc
    · subst h1; exact ha
    rcases List.mem_cons.mp hpc with h1 | hpc
    · subst h1; exact hc
    rcases List.mem_cons.mp hpc with h1 | hpc
    · subst h1; exact hb
    · exact absurd hpc (List.not_mem_nil _)

/-- Shared computation for the single-placeholder substitution claims: on a
paragraph holding one run with one non-signature placeholder between
brace-free literals, the substituted text is the literals around the
computed replacement value. -/
theorem replaceInParagraph_single_token (tokenize : PyStr → List HEvent)
    (data : List (PyStr × PyStr)) (st a b c val : PyStr)
    (ha : braceFree a) (hb : braceFree b) (hc : tokOK c)
    (hrv : replValue data c = some val)
    (hvbf : '\x7b' ∉ val)
    (hvhtml : (pySubstr ['<'] val && pySubstr ['>'] val) = false) :
    Paragraph.text (replaceInParagraph tokenize data
      { runs := [plainRun (a ++ (tokStr c ++ b))], styleName := st }) = a ++ (val ++ b) := by
  have htext : Paragraph.text
      ({ runs := [plainRun (a ++ (tokStr c ++ b))], styleName := st } : Paragraph)
      = a ++ (tokStr c ++ b) := text_single_run _ _
  have hms : findTok (Paragraph.text
      ({ runs := [plainRun (a ++ (tokStr c ++ b))], styleName := st } : Paragraph)) = [c] := by
    rw [htext]; exact findTok_single ha hb hc
  have hrepl : buildReplacements data [c] = [(tokStr c, val)] := by
    unfold buildReplacements replStep
    simp [hrv, pyDictInsert]
  have happ : applyReplacements (Paragraph.text
      ({ runs := [plainRun (a ++ (tokStr c ++ b))], styleName := st } : Paragraph))
      [(tokStr c, val)] = a ++ (val ++ b) := by
    unfold applyReplacements
    simp only [List.foldl]
    rw [htext, replace_single ha.1 hb.1]
  simp only [replaceInParagraph]
  rw [hms, hrepl, happ]
  rw [if_neg (by simp : ¬([c] : List PyStr) = [])]
  rw [if_neg (by simp : ¬([(tokStr c, val)] : List (PyStr × PyStr)) = [])]
  have hneq : ¬ (a ++ (val ++ b) = Paragraph.text
      ({ runs := [plainRun (a ++ (tokStr c ++ b))], styleName := st } : Paragraph)) := by
    rw [htext]
    intro heq
    have hmem : '\x7b' ∈ a ++ (tokStr c ++ b) := by
      apply List.mem_append_right
      exact List.mem_append_left _ (brace_mem_tokStr c)
    rw [← heq] at hmem
    rcases List.mem_append.mp hmem with h1 | h1
    · exact ha.1 h1
    rcases List.mem_append.mp h1 with h1 | h1
    · exact hvbf h1
    · exact hb.1 h1
  rw [if_neg hneq]
  have hh : hasHtmlValues [(tokStr c, val)] = false := by
    unfold hasHtmlValues
    simp [hvhtml]
  rw [hh]
  simp only [Bool.false_eq_true, if_false]
  by_cases hnil : a ++ (val ++ b) = []
  · rw [if_pos hnil, text_no_runs, hnil]
  · rw [if_neg hnil, text_single_run]

theorem checkboxValue_cases (v : PyStr) :
    checkboxValue v = yesLit ∨ checkboxValue v = noLit := by
  unfold checkboxValue
  split
  · exact Or.inl rfl
  · exact Or.inr rfl

theorem pyStartsWith_self_append : ∀ (x t : PyStr), pyStartsWith x (x ++ t) = true := by
  intro x t
  induction x with
  | nil => rfl
  | cons a as ih => simp [pyStartsWith, ih]

theorem pySubstr_sandwich {x : PyStr} (hx : x ≠ []) :
    ∀ (a b : PyStr), pySubstr x (a ++ (x ++ b)) = true := by
  intro a
  induction a with
  | nil =>
    intro b
    cases hxe : x with
    | nil => exact absurd hxe hx
    | cons y ys =>
      simp only [List.nil_append, List.cons_append, pySubstr, List.append_eq]
      have := pyStartsWith_self_append (y :: ys) b
      simp only [List.cons_append] at this
      simp [this]
  | cons a0 a' ih =>
    intro b
    simp only [List.cons_append, pySubstr, List.append_eq]
    simp [ih b]

theorem inchesDefined_false : inchesDefined = false := by decide

theorem insertSigImages_err {ex : PyStr → Bool} :
    ∀ (paths : List PyStr) (runs : List Run), (∃ q ∈ paths, ex q = true) →
      insertSigImages ex paths runs = (runs ++ [emptyRun], some nameErrInches) := by
  intro paths
  induction paths with
  | nil =>
    intro runs h
    rcases h with ⟨q, hq, _⟩
    exact absurd hq (List.not_mem_nil _)
  | cons p ps ih =>
    intro runs h
    by_cases hp : ex p = true
    · simp only [insertSigImages, hp, if_true, inchesDefined_false, Bool.false_eq_true, if_false]
    · rcases h with ⟨q, hq, hex⟩
      rcases List.mem_cons.mp hq with heq | hq'
      · exact absurd (heq ▸ hex) hp
      · simp only [insertSigImages, hp, Bool.false_eq_true, if_false]
        exact ih runs ⟨q, hq', hex⟩

theorem removeFromFirstRun_found {ph : PyStr} {r : Run} {rs : List Run}
    (h : pySubstr ph r.text = true) :
    removeFromFirstRun ph (r :: rs) = some ({ r with text := pyReplace r.text ph [] } :: rs) := by
  simp [removeFromFirstRun, h]

theorem parseStep_seen {st : ParseState} {c : PyStr} (h : contentName c ∈ st.seen) :
    parseStep st c = st := by
  simp [parseStep, h]

theorem parseStep_new {st : ParseState} {c : PyStr} (h : contentName c ∉ st.seen) :
    parseStep st c = { fields := st.fields ++ [mkFieldDef c],
                       seen := st.seen ++ [contentName c],
                       groups := nameBranch (sigBranch st.groups (mkFieldDef c)) (mkFieldDef c) } := by
  simp [parseStep, h]

theorem firstOccurrencesGo_seen {seen : List PyStr} {c : PyStr} (cs : List PyStr)
    (h : contentName c ∈ seen) :
    firstOccurrencesGo seen (c :: cs) = firstOccurrencesGo seen cs := by
  simp [firstOccurrencesGo, h]

theorem firstOccurrencesGo_new {seen : List PyStr} {c : PyStr} (cs : List PyStr)
    (h : contentName c ∉ seen) :
    firstOccurrencesGo seen (c :: cs)
      = c :: firstOccurrencesGo (seen ++ [contentName c]) cs := by
  simp [firstOccurrencesGo, h]

theorem foldl_parseStep_dedup :
    ∀ (cs : List PyStr) (st : ParseState),
      cs.foldl parseStep st = (firstOccurrencesGo st.seen cs).foldl parseStep st := by
  intro cs
  induction cs with
  | nil => intro st; rfl
  | cons c cs' ih =>
    intro st
    by_cases h : contentName c ∈ st.seen
    · rw [List.foldl_cons, parseStep_seen h, firstOccurrencesGo_seen cs' h]
      exact ih st
    · rw [List.foldl_cons, firstOccurrencesGo_new cs' h, List.foldl_cons]
      have hseen : st.seen ++ [contentName c] = (parseStep st c).seen := by
        rw [parseStep_new h]
      rw [hseen]
      exact ih (parseStep st c)

theorem foldl_parseStep_fields :
    ∀ (cs : List PyStr) (st : ParseState),
      (cs.foldl parseStep st).fields
        = st.fields ++ (firstOccurrencesGo st.seen cs).map mkFieldDef := by
  intro cs
  induction cs with
  | nil => intro st; simp [firstOccurrencesGo]
  | cons c cs' ih =>
    intro st
    by_cases h : contentName c ∈ st.seen
    · rw [List.foldl_cons, parseStep_seen h, firstOccurrencesGo_seen cs' h]
      exact ih st
    · rw [List.foldl_cons, firstOccurrencesGo_new cs' h]
      rw [ih (parseStep st c)]
      rw [parseStep_new h]
      simp [List.append_assoc]

theorem firstOccurrencesGo_nodup :
    ∀ (cs seen : List PyStr),
      ((firstOccurrencesGo seen cs).map (fun c => contentName c)).Nodup
      ∧ ∀ n ∈ (firstOccurrencesGo seen cs).map (fun c => contentName c), n ∉ seen := by
  intro cs
  induction cs with
  | nil =>
    intro seen
    exact ⟨List.nodup_nil, by simp [firstOccurrencesGo]⟩
  | cons c cs' ih =>
    intro seen
    by_cases h : contentName c ∈ seen
    · rw [firstOccurrencesGo_seen cs' h]
      exact ih seen
    · rw [firstOccurrencesGo_new cs' h]
      constructor
      · rw [List.map_cons, List.nodup_cons]
        constructor
        · intro hmem
          have := (ih (seen ++ [contentName c])).2 _ hmem
          exact this (by simp)
        · exact (ih (seen ++ [contentName c])).1
      · intro n hn
        rw [List.map_cons] at hn
        rcases List.mem_cons.mp hn with h1 | h1
        · exact h1 ▸ h
        · have := (ih (seen ++ [contentName c])).2 _ h1
          intro hns
          exact this (List.mem_append_left _ hns)

theorem mkFieldDef_name (c : PyStr) : (mkFieldDef c).name = contentName c := rfl

theorem pySplitChar_append_sep {ch : Char} : ∀ (a rest : PyStr), ch ∉ a →
    pySplitChar ch (a ++ ch :: rest) = a :: pySplitChar ch rest := by
  intro a
  induction a with
  | nil => intro rest _; simp [pySplitChar]
  | cons x a' ih =>
    intro rest hx
    have h1 : x ≠ ch := fun h => hx (by simp [h])
    have h2 : ch ∉ a' := fun h => hx (by simp [h])
    show pySplitChar ch (x :: (a' ++ ch :: rest)) = (x :: a') :: pySplitChar ch rest
    simp only [pySplitChar, if_neg h1]
    rw [ih rest h2]

theorem pySplitChar_nosep {ch : Char} : ∀ a : PyStr, ch ∉ a → pySplitChar ch a = [a] := by
  intro a
  induction a with
  | nil => intro _; rfl
  | cons x a' ih =>
    intro hx
    have h1 : x ≠ ch := fun h => hx (by simp [h])
    have h2 : ch ∉ a' := fun h => hx (by simp [h])
    simp only [pySplitChar, if_neg h1]
    rw [ih h2]

theorem sigContent_split {vs lb : PyStr} (hvs : '|' ∉ vs) (hlb : '|' ∉ lb) :
    pySplitChar '|' (sigTokContent vs lb) = [vs, sigLit, lb] := by
  unfold sigTokContent
  rw [pySplitChar_append_sep _ _ hvs, pySplitChar_append_sep _ _ (by decide),
    pySplitChar_nosep _ hlb]

theorem nameContent_split {vn : PyStr} (hvn : '|' ∉ vn) :
    pySplitChar '|' (nameTokContent vn) = [vn, textLit, [], autofilledLit] := by
  unfold nameTokContent
  rw [pySplitChar_append_sep _ _ hvn, pySplitChar_append_sep _ _ (by decide)]
  have h0 : ('|' :: autofilledLit : PyStr) = [] ++ '|' :: autofilledLit := rfl
  rw [h0, pySplitChar_append_sep _ _ (by decide), pySplitChar_nosep _ (by decide)]

theorem mkFieldDef_sigContent {vs lb : PyStr} (hvs : '|' ∉ vs) (hlb : '|' ∉ lb)
    (hstrip : pyStrip vs = vs) :
    mkFieldDef (sigTokContent vs lb)
      = { name := vs, ftype := sigLit, label := pyStrip lb, validation := [],
          options := [], min_value := none, max_value := none, is_autofilled := false } := by
  simp [mkFieldDef, sigContent_split hvs hlb, hstrip, (by decide : pyStrip sigLit = sigLit),
    (by decide : (sigLit = numberLit) = False), (by decide : pySubstr optionsLit [] = false),
    (by decide : pySubstr autofilledLit (pyLower []) = false)]

theorem mkFieldDef_nameContent {vn : PyStr} (hvn : '|' ∉ vn) (hstrip : pyStrip vn = vn) :
    mkFieldDef (nameTokContent vn)
      = { name := vn, ftype := textLit, label := [], validation := autofilledLit,
          options := [], min_value := none, max_value := none, is_autofilled := true } := by
  simp [mkFieldDef, nameContent_split hvn, hstrip,
    (by decide : pyStrip textLit = textLit),
    (by decide : pyStrip autofilledLit = autofilledLit),
    (by decide : pyStrip ([] : PyStr) = []),
    (by decide : (textLit = numberLit) = False),
    (by decide : pySubstr optionsLit autofilledLit = false),
    (by decide : pySubstr autofilledLit (pyLower autofilledLit) = true)]

theorem contentName_sigContent {vs lb : PyStr} (hvs : '|' ∉ vs) (hlb : '|' ∉ lb)
    (hstrip : pyStrip vs = vs) : contentName (sigTokContent vs lb) = vs := by
  unfold contentName
  rw [sigContent_split hvs hlb]
  simpa using hstrip

theorem contentName_nameContent {vn : PyStr} (hvn : '|' ∉ vn) (hstrip : pyStrip vn = vn) :
    contentName (nameTokContent vn) = vn := by
  unfold contentName
  rw [nameContent_split hvn]
  simpa using hstrip

theorem tokOK_sigContent {vs lb : PyStr} (hvs : tokOK vs) (hlb : tokOK lb) :
    tokOK (sigTokContent vs lb) := by
  constructor
  · refine braceFree_append hvs.1 ⟨?_, ?_⟩ <;>
    · intro h
      rcases List.mem_cons.mp h with h | h
      · exact absurd h (by decide)
      rcases List.mem_append.mp h with h | h
      · exact absurd h (by decide)
      rcases List.mem_cons.mp h with h | h
      · exact absurd h (by decide)
      · first
        | exact hlb.1.1 h
        | exact hlb.1.2 h
  · intro h
    rcases List.mem_append.mp h with h | h
    · exact hvs.2 h
    rcases List.mem_cons.mp h with h | h
    · exact absurd h (by decide)
    rcases List.mem_append.mp h with h | h
    · exact absurd h (by decide)
    rcases List.mem_cons.mp h with h | h
    · exact absurd h (by decide)
    · exact hlb.2 h

theorem tokOK_nameContent {vn : PyStr} (hvn : tokOK vn) : tokOK (nameTokContent vn) := by
  constructor
  · refine braceFree_append hvn.1 ⟨?_, ?_⟩ <;>
    · intro h
      exact absurd h (by decide)
  · intro h
    rcases List.mem_append.mp h with h | h
    · exact hvn.2 h
    · exact absurd h (by decide)

theorem allContents_twoTokDoc {c1 c2 : PyStr} (h1 : tokOK c1) (h2 : tokOK c2) :
    allContents (twoTokDoc c1 c2) = [c1, c2] := by
  have hWF : ∀ pc ∈ [Piece.tok c1, Piece.tok c2], pieceWF pc := by
    intro pc hpc
    rcases List.mem_cons.mp hpc with h | hpc
    · subst h; exact h1
    rcases List.mem_cons.mp hpc with h | hpc
    · subst h; exact h2
    · exact absurd hpc (List.not_mem_nil _)
  have hrender : tokStr c1 ++ tokStr c2 = renderPieces [Piece.tok c1, Piece.tok c2] := by
    simp [renderPieces]
  have htext := findTok_renderPieces [Piece.tok c1, Piece.tok c2] hWF
  simp only [allContents, twoTokDoc, docTexts, docCellParas, flatMapAll, List.append_nil,
    List.map, Paragraph.text, plainRun, concatAll, List.foldr]
  rw [hrender, htext]
  rfl

/-! ## Theorems -/

/-- Claim C7: export_docx and export_doc on the same generator state return
byte-for-byte equal output, and each is exactly the result of generate on
that state; export_doc performs no legacy-binary conversion. -/
theorem claim_C7_export_doc_docx_equal (tokenize : PyStr → List HEvent) (g : GenState) :
    export_docx tokenize g = export_doc tokenize g ∧
    export_docx tokenize g = generate tokenize g ∧
    export_doc tokenize g = generate tokenize g :=
  ⟨rfl, rfl, rfl⟩

/-- Claim C8: export_pdf loads a fresh document from the template path,
substitutes only into that local copy and never mutates the generator state
(in particular not its held document); consequently a second call on the
same generator yields the same output. -/
theorem claim_C8_export_pdf_frame (fs : PyStr → Document) (tokenize : PyStr → List HEvent)
    (rl : Bool) (g : GenState) :
    (export_pdf fs tokenize rl g).2 = g ∧
    (export_pdf fs tokenize rl g).2.document = g.document ∧
    (export_pdf fs tokenize rl ((export_pdf fs tokenize rl g).2)).1
      = (export_pdf fs tokenize rl g).1 := by
  have h : (export_pdf fs tokenize rl g).2 = g := by
    unfold export_pdf; split <;> rfl
  exact ⟨h, by rw [h], by rw [h]⟩

/-- Claim C9, counterexample: a fragment holding a single space contains no
opening angle bracket, yet parse_html appends no run at all (the blank
check returns first), refuting the claim that every fragment without an
opening angle bracket is appended as exactly one run. -/
theorem claim_C9_counterexample :
    pySubstr ['<'] [' '] = false ∧
    parseHtml (fun _ => []) {} [' '] = ({} : Paragraph) ∧
    ¬ ((parseHtml (fun _ => []) {} [' ']).runs.length = 1) := by
  decide

/-- Claim C9, amended: for every fragment that contains no opening angle
bracket and is not blank (nonempty after stripping), parse_html appends the
fragment verbatim to the paragraph as exactly one unformatted run. -/
theorem claim_C9_plain_fragment_one_run (tokenize : PyStr → List HEvent)
    (p : Paragraph) (html : PyStr)
    (hlt : pySubstr ['<'] html = false) (hstrip : pyStrip html ≠ []) :
    parseHtml tokenize p html = { p with runs := p.runs ++ [plainRun html] } := by
  have hne : ¬ (html = [] ∨ pyStrip html = []) := by
    rintro (h | h)
    · exact hstrip (by simp [h, pyStrip])
    · exact hstrip h
  unfold parseHtml
  rw [if_neg hne, if_pos (by simp [hlt])]

/-- Witness for the amended C9 theorem at a concrete two-letter fragment. -/
theorem claim_C9_plain_fragment_one_run_witness :
    pySubstr ['<'] ['h', 'i'] = false ∧ pyStrip ['h', 'i'] ≠ [] ∧
    parseHtml (fun _ => []) {} ['h', 'i']
      = { ({} : Paragraph) with runs := ({} : Paragraph).runs ++ [plainRun ['h', 'i']] } :=
  ⟨by decide, by decide,
   claim_C9_plain_fragment_one_run (fun _ => []) {} ['h', 'i'] (by decide) (by decide)⟩

/-- Claim C1 (code bug evidence): on a document holding one signature
placeholder wholly inside one run, apply_multiple_signatures with a
matching key and one existing image path removes the placeholder text,
appends one empty run, and raises a NameError on the unimported name
Inches instead of inserting the image. -/
theorem claim_C1_insertion_raises_at_input :
    applyMultipleSignatures (fun s => decide (s = r"/a.png".toList))
        [(r"requester_1".toList, [r"/a.png".toList])]
        { paragraphs := [{ runs := [plainRun (tokStr (r"requester_1|signature|R".toList))] }],
          tables := [] }
      = ({ paragraphs := [{ runs := [emptyRun, emptyRun] }], tables := [] },
         some (PyErr.nameError inchesLit)) := by
  decide


/-- Claim C2, counterexample: three templates in which every placeholder
name is a key of the input data, yet generate leaves a placeholder token in
the output text.  First, a signature-typed placeholder is skipped by the
text substitution even when its name is supplied.  Second, a value may
itself contain a placeholder token.  Third, overlapping brace sequences
defeat the paragraph-level string replacement: the document text made of
the token a, a dot, and a token whose content is y followed by an opening
double brace and a, followed by Q and a closing double brace, with both
names mapped to the empty string, leaves a fresh token behind. -/
theorem claim_C2_counterexample :
    ((∀ c ∈ findTok (tokStr (r"s_1|signature|S".toList)),
      (pyDictGet? [(r"s_1".toList, r"x".toList)] (contentName c)).isSome = true) ∧
    (∃ t ∈ docTexts (generate (fun _ => [])
        { template_path := [], data := [(r"s_1".toList, r"x".toList)],
          document := { paragraphs := [{ runs := [plainRun (tokStr (r"s_1|signature|S".toList))] }],
                        tables := [] } }).1.doc, findTok t ≠ [])) ∧
    ((∀ c ∈ findTok (tokStr (r"a".toList)),
      (pyDictGet? [(r"a".toList, tokStr (r"b".toList))] (contentName c)).isSome = true) ∧
    (∃ t ∈ docTexts (generate (fun _ => [])
        { template_path := [], data := [(r"a".toList, tokStr (r"b".toList))],
          document := { paragraphs := [{ runs := [plainRun (tokStr (r"a".toList))] }],
                        tables := [] } }).1.doc, findTok t ≠ [])) ∧
    ((∀ c ∈ findTok (tokStr (r"a".toList) ++ ['.'] ++
        tokStr (r"y".toList ++ ['\x7b', '\x7b'] ++ r"a".toList) ++ (r"Q".toList) ++ ['\x7d', '\x7d']),
      (pyDictGet? [(r"a".toList, []), (r"y".toList ++ ['\x7b', '\x7b'] ++ r"a".toList, [])]
        (contentName c)).isSome = true) ∧
    (∃ t ∈ docTexts (generate (fun _ => [])
        { template_path := [],
          data := [(r"a".toList, []), (r"y".toList ++ ['\x7b', '\x7b'] ++ r"a".toList, [])],
          document := { paragraphs := [{ runs := [plainRun (tokStr (r"a".toList) ++ ['.'] ++
              tokStr (r"y".toList ++ ['\x7b', '\x7b'] ++ r"a".toList) ++ (r"Q".toList) ++ ['\x7d', '\x7d'])] }],
                        tables := [] } }).1.doc, findTok t ≠ [])) := by
  exact ⟨⟨by decide, by decide⟩, ⟨by decide, by decide⟩, by decide, by decide⟩

/-- Claim C2, amended: for every template whose paragraph texts (body and
table cells) are well-formed alternations of brace-free literal text and
placeholder tokens with brace-free newline-free contents, in which no
placeholder is signature-typed and every placeholder name is a key of the
input data, and whose data values are brace-free and not HTML (no value
contains both angle brackets), the document returned by generate contains
zero remaining placeholder tokens: the pattern finds no match in any body
or table-cell paragraph text of the output. -/
theorem claim_C2_token_free_output (tokenize : PyStr → List HEvent)
    (tp : PyStr) (sp : Option PyStr) (data : List (PyStr × PyStr)) (doc : Document)
    (hp : ∀ t ∈ docTexts doc, wfParaText data t)
    (hv : valuesSafe data) :
    ∀ t ∈ docTexts (generate tokenize
        { template_path := tp, data := data, document := doc, signature_path := sp }).1.doc,
      findTok t = [] := by
  intro t ht
  have hdoc : (generate tokenize
      { template_path := tp, data := data, document := doc, signature_path := sp }).1.doc
      = mapDocParas (replaceInParagraph tokenize data) doc := rfl
  rw [hdoc, docTexts_mapDocParas] at ht
  rcases List.mem_map.mp ht with ⟨p', hp', rfl⟩
  rcases List.mem_map.mp hp' with ⟨p, hp2, rfl⟩
  apply replaceInParagraph_token_free
  · apply hp
    unfold docTexts
    exact List.mem_map.mpr ⟨p, hp2, rfl⟩
  · exact hv

/-- Witness for the amended C2 theorem on a one-paragraph template with a
literal greeting and one supplied text placeholder. -/
theorem claim_C2_token_free_output_witness :
    (∀ t ∈ docTexts
        { paragraphs := [{ runs := [plainRun (renderPieces
            [Piece.lit (r"Hello ".toList), Piece.tok (r"name".toList),
             Piece.lit (r"!".toList)])] }], tables := [] },
      wfParaText [(r"name".toList, r"World".toList)] t) ∧
    valuesSafe [(r"name".toList, r"World".toList)] ∧
    (∀ t ∈ docTexts (generate (fun _ => [])
        { template_path := [], data := [(r"name".toList, r"World".toList)],
          document := { paragraphs := [{ runs := [plainRun (renderPieces
            [Piece.lit (r"Hello ".toList), Piece.tok (r"name".toList),
             Piece.lit (r"!".toList)])] }], tables := [] },
          signature_path := none }).1.doc,
      findTok t = []) :=
  have h1 : ∀ t ∈ docTexts
      ({ paragraphs := [{ runs := [plainRun (renderPieces
          [Piece.lit (r"Hello ".toList), Piece.tok (r"name".toList),
           Piece.lit (r"!".toList)])] }], tables := [] } : Document),
      wfParaText [(r"name".toList, r"World".toList)] t := by
    intro t ht
    have hlist : t = renderPieces
        [Piece.lit (r"Hello ".toList), Piece.tok (r"name".toList), Piece.lit (r"!".toList)] := by
      have hd : docTexts
          ({ paragraphs := [{ runs := [plainRun (renderPieces
              [Piece.lit (r"Hello ".toList), Piece.tok (r"name".toList),
               Piece.lit (r"!".toList)])] }], tables := [] } : Document)
          = [renderPieces [Piece.lit (r"Hello ".toList), Piece.tok (r"name".toList),
              Piece.lit (r"!".toList)]] := by decide
      rw [hd] at ht
      simpa using ht
    refine ⟨[Piece.lit (r"Hello ".toList), Piece.tok (r"name".toList),
      Piece.lit (r"!".toList)], hlist, ?_, ?_⟩
    · intro pc hpc
      rcases List.mem_cons.mp hpc with h | hpc
      · subst h; exact ⟨by decide, by decide⟩
      rcases List.mem_cons.mp hpc with h | hpc
      · subst h; exact ⟨⟨by decide, by decide⟩, by decide⟩
      rcases List.mem_cons.mp hpc with h | hpc
      · subst h; exact ⟨by decide, by decide⟩
      · exact absurd hpc (List.not_mem_nil _)
    · intro c hc
      have hcn : c = r"name".toList := by
        rcases List.mem_cons.mp hc with h | hc
        · cases h
        · rcases List.mem_cons.mp hc with h | hc
          · injection h with h
          · rcases List.mem_cons.mp hc with h | hc
            · cases h
            · exact absurd hc (List.not_mem_nil _)
      subst hcn
      exact ⟨by decide, by decide⟩
  have h2 : valuesSafe [(r"name".toList, r"World".toList)] := by
    intro kv hkv
    have : kv = (r"name".toList, r"World".toList) := by simpa using hkv
    subst this
    exact ⟨⟨by decide, by decide⟩, by decide⟩
  ⟨h1, h2, claim_C2_token_free_output (fun _ => []) [] none _ _ h1 h2⟩


/-- Claim C5: when generate substitutes a placeholder whose full content
contains the substring checkbox (case-insensitively) and whose name is
present in the input data, the substituted value is Yes when the
stringified raw value lower-cases to one of true, 1, yes, on, and No
otherwise. -/
theorem claim_C5_checkbox_normalization (tokenize : PyStr → List HEvent)
    (tp st : PyStr) (sp : Option PyStr) (data : List (PyStr × PyStr)) (a b c v : PyStr)
    (ha : braceFree a) (hb : braceFree b) (hc : tokOK c)
    (hty : typeByLen c ≠ sigLit)
    (hchk : pySubstr checkboxLit (pyLower c) = true)
    (hv : pyDictGet? data (contentName c) = some v) :
    ((generate tokenize
        { template_path := tp, data := data,
          document := { paragraphs := [{ runs := [plainRun (a ++ (tokStr c ++ b))], styleName := st }],
                        tables := [] },
          signature_path := sp }).1.doc.paragraphs.map Paragraph.text)
      = [a ++ (checkboxValue v ++ b)]
    ∧ checkboxValue v
      = (if pyLower v ∈ [trueLit, oneLit, yesLowerLit, onLit] then yesLit else noLit) := by
  constructor
  · have hrv : replValue data c = some (checkboxValue v) := by
      unfold replValue
      rw [if_neg hty, hv]
      simp [hchk]
    have hvb : '\x7b' ∉ checkboxValue v := by
      rcases checkboxValue_cases v with h | h <;> rw [h] <;> decide
    have hvh : (pySubstr ['<'] (checkboxValue v) && pySubstr ['>'] (checkboxValue v)) = false := by
      rcases checkboxValue_cases v with h | h <;> rw [h] <;> decide
    have hmain := replaceInParagraph_single_token tokenize data st a b c (checkboxValue v)
      ha hb hc hrv hvb hvh
    have hdoc : (generate tokenize
        { template_path := tp, data := data,
          document := { paragraphs := [{ runs := [plainRun (a ++ (tokStr c ++ b))], styleName := st }],
                        tables := [] },
          signature_path := sp }).1.doc.paragraphs
        = [replaceInParagraph tokenize data
            { runs := [plainRun (a ++ (tokStr c ++ b))], styleName := st }] := rfl
    rw [hdoc]
    simp [hmain]
  · rfl

/-- Witness for C5 at the three values named by the spec: on renders Yes,
false renders No, banana renders No. -/
theorem claim_C5_checkbox_normalization_witness :
    ((generate (fun _ => [])
        { template_path := [],
          data := [(r"agree".toList, r"on".toList)],
          document :=
            { paragraphs := [{ runs := [plainRun ((r"A".toList) ++
                (tokStr (r"agree|checkbox|OK".toList) ++ (r"B".toList)))], styleName := [] }],
              tables := [] },
          signature_path := none }).1.doc.paragraphs.map Paragraph.text) = [r"AYesB".toList]
    ∧
    ((generate (fun _ => [])
        { template_path := [],
          data := [(r"agree".toList, r"false".toList)],
          document :=
            { paragraphs := [{ runs := [plainRun ((r"A".toList) ++
                (tokStr (r"agree|checkbox|OK".toList) ++ (r"B".toList)))], styleName := [] }],
              tables := [] },
          signature_path := none }).1.doc.paragraphs.map Paragraph.text) = [r"ANoB".toList]
    ∧
    ((generate (fun _ => [])
        { template_path := [],
          data := [(r"agree".toList, r"banana".toList)],
          document :=
            { paragraphs := [{ runs := [plainRun ((r"A".toList) ++
                (tokStr (r"agree|checkbox|OK".toList) ++ (r"B".toList)))], styleName := [] }],
              tables := [] },
          signature_path := none }).1.doc.paragraphs.map Paragraph.text) = [r"ANoB".toList] :=
  ⟨((claim_C5_checkbox_normalization (fun _ => []) [] [] none
      [(r"agree".toList, r"on".toList)] (r"A".toList) (r"B".toList)
      (r"agree|checkbox|OK".toList) (r"on".toList)
      ⟨by decide, by decide⟩ ⟨by decide, by decide⟩ ⟨⟨by decide, by decide⟩, by decide⟩
      (by decide) (by decide) (by decide)).1).trans (by decide),
   ((claim_C5_checkbox_normalization (fun _ => []) [] [] none
      [(r"agree".toList, r"false".toList)] (r"A".toList) (r"B".toList)
      (r"agree|checkbox|OK".toList) (r"false".toList)
      ⟨by decide, by decide⟩ ⟨by decide, by decide⟩ ⟨⟨by decide, by decide⟩, by decide⟩
      (by decide) (by decide) (by decide)).1).trans (by decide),
   ((claim_C5_checkbox_normalization (fun _ => []) [] [] none
      [(r"agree".toList, r"banana".toList)] (r"A".toList) (r"B".toList)
      (r"agree|checkbox|OK".toList) (r"banana".toList)
      ⟨by decide, by decide⟩ ⟨by decide, by decide⟩ ⟨⟨by decide, by decide⟩, by decide⟩
      (by decide) (by decide) (by decide)).1).trans (by decide)⟩

/-- Claim C4: a non-signature placeholder whose name is not a key of the
input data is substituted by the empty string, and the substitution pass
never raises (it is a total function in this embedding, mirroring the
source, which has no raising operation on this path). -/
theorem claim_C4_unknown_name_blank (tokenize : PyStr → List HEvent)
    (tp st : PyStr) (sp : Option PyStr) (data : List (PyStr × PyStr)) (a b c : PyStr)
    (ha : braceFree a) (hb : braceFree b) (hc : tokOK c)
    (hty : typeByLen c ≠ sigLit)
    (hv : pyDictGet? data (contentName c) = none) :
    ((generate tokenize
        { template_path := tp, data := data,
          document := { paragraphs := [{ runs := [plainRun (a ++ (tokStr c ++ b))], styleName := st }],
                        tables := [] },
          signature_path := sp }).1.doc.paragraphs.map Paragraph.text)
      = [a ++ b] := by
  have hrv : replValue data c = some [] := by
    unfold replValue
    rw [if_neg hty, hv]
  have hmain := replaceInParagraph_single_token tokenize data st a b c []
    ha hb hc hrv (by decide) (by decide)
  have hdoc : (generate tokenize
      { template_path := tp, data := data,
        document := { paragraphs := [{ runs := [plainRun (a ++ (tokStr c ++ b))], styleName := st }],
                      tables := [] },
        signature_path := sp }).1.doc.paragraphs
      = [replaceInParagraph tokenize data
          { runs := [plainRun (a ++ (tokStr c ++ b))], styleName := st }] := rfl
  rw [hdoc]
  simp [hmain]

/-- Witness for C4: a template containing only an unsupplied placeholder
between two literals renders those literals with the placeholder blanked. -/
theorem claim_C4_unknown_name_blank_witness :
    ((generate (fun _ => [])
        { template_path := [], data := [],
          document :=
            { paragraphs := [{ runs := [plainRun ((r"A".toList) ++
                (tokStr (r"missing_field".toList) ++ (r"B".toList)))], styleName := [] }],
              tables := [] },
          signature_path := none }).1.doc.paragraphs.map Paragraph.text) = [r"AB".toList] :=
  (claim_C4_unknown_name_blank (fun _ => []) [] [] none [] (r"A".toList) (r"B".toList)
      (r"missing_field".toList)
      ⟨by decide, by decide⟩ ⟨by decide, by decide⟩ ⟨⟨by decide, by decide⟩, by decide⟩
      (by decide) (by decide)).trans (by decide)


/-- Claim C10: whenever apply_signatures (with an existing image path) or
apply_multiple_signatures (with a matching key and an existing image path)
reaches its image-insertion step — a signature-typed placeholder wholly
inside one run — the call raises a NameError, because Inches is referenced
at the insertion site but never imported; the placeholder text has already
been removed from the run (and an empty run appended by add_run) when the
exception is raised, so the document is left partially mutated. -/
theorem claim_C10_inches_name_error (ex : PyStr → Bool) (st a b c k sp : PyStr)
    (paths : List PyStr)
    (ha : braceFree a) (hb : braceFree b) (hc : tokOK c)
    (hty : typeByPipe c = sigLit)
    (hmatch : (∃ kp kd vd, pyMatchPfxNum k = some (kp, kd)
                ∧ pyMatchPfxNum (contentName c) = some (kp, vd))
              ∨ (pyMatchPfxNum k = none ∧ k = contentName c))
    (hpath : ∃ q ∈ paths, ex q = true)
    (hsp : ex sp = true) (hspne : sp ≠ []) :
    applyMultipleSignatures ex [(k, paths)]
        { paragraphs := [{ runs := [plainRun (a ++ (tokStr c ++ b))], styleName := st }],
          tables := [] }
      = ({ paragraphs := [{ runs := [plainRun (a ++ b), emptyRun], styleName := st }],
           tables := [] }, some (PyErr.nameError inchesLit))
    ∧ applySignatures ex (some sp)
        { paragraphs := [{ runs := [plainRun (a ++ (tokStr c ++ b))], styleName := st }],
          tables := [] }
      = ({ paragraphs := [{ runs := [plainRun (a ++ b), emptyRun], styleName := st }],
           tables := [] }, some (PyErr.nameError inchesLit)) := by
  have hrun : removeFromFirstRun (tokStr c) [plainRun (a ++ (tokStr c ++ b))]
      = some [plainRun (a ++ b)] := by
    have hsub : pySubstr (tokStr c) (Run.text (plainRun (a ++ (tokStr c ++ b)))) = true :=
      pySubstr_sandwich (tokStr_ne_nil c) a b
    rw [removeFromFirstRun_found hsub]
    simp [plainRun, replace_single ha.1 hb.1]
  have htext : Paragraph.text
      ({ runs := [plainRun (a ++ (tokStr c ++ b))], styleName := st } : Paragraph)
      = a ++ (tokStr c ++ b) := text_single_run _ _
  have hms : findTok (Paragraph.text
      ({ runs := [plainRun (a ++ (tokStr c ++ b))], styleName := st } : Paragraph)) = [c] := by
    rw [htext]; exact findTok_single ha hb hc
  have hinsert : insertSigImages ex paths [plainRun (a ++ b)]
      = ([plainRun (a ++ b), emptyRun], some nameErrInches) :=
    insertSigImages_err paths _ hpath
  have hentry : processMultiEntry ex c
      ({ runs := [plainRun (a ++ (tokStr c ++ b))], styleName := st } : Paragraph) (k, paths)
      = ({ runs := [plainRun (a ++ b), emptyRun], styleName := st }, some nameErrInches) := by
    rcases hmatch with ⟨kp, kd, vd, hk, hvn⟩ | ⟨hk, hkeq⟩
    · simp [processMultiEntry, hk, hvn, hrun, hinsert, nameErrInches]
    · simp [processMultiEntry, hk, ← hkeq, hrun, hinsert, nameErrInches]
  have hmm : processMultiMatch ex [(k, paths)]
      ({ runs := [plainRun (a ++ (tokStr c ++ b))], styleName := st } : Paragraph) c
      = ({ runs := [plainRun (a ++ b), emptyRun], styleName := st }, some nameErrInches) := by
    unfold processMultiMatch
    rw [if_pos hty]
    simp only [foldErr]
    rw [hentry]
  have hpara : replaceMultiSigInParagraph ex [(k, paths)]
      ({ runs := [plainRun (a ++ (tokStr c ++ b))], styleName := st } : Paragraph)
      = ({ runs := [plainRun (a ++ b), emptyRun], styleName := st }, some nameErrInches) := by
    unfold replaceMultiSigInParagraph
    rw [hms]
    simp only [foldErr]
    rw [hmm]
  have hsub2 : pySubstr (tokStr c) (Paragraph.text
      ({ runs := [plainRun (a ++ (tokStr c ++ b))], styleName := st } : Paragraph)) = true := by
    rw [htext]; exact pySubstr_sandwich (tokStr_ne_nil c) a b
  have hpara2 : replaceSigInParagraph sp
      ({ runs := [plainRun (a ++ (tokStr c ++ b))], styleName := st } : Paragraph)
      = ({ runs := [plainRun (a ++ b), emptyRun], styleName := st }, some nameErrInches) := by
    simp only [replaceSigInParagraph]
    rw [hms]
    simp only [foldErr]
    rw [if_pos ⟨hty, hsub2⟩, hrun]
    simp only [inchesDefined_false, Bool.false_eq_true, if_false]
    rfl
  constructor
  · unfold applyMultipleSignatures
    rw [if_neg (by simp : ¬([(k, paths)] : List (PyStr × List PyStr)) = [])]
    unfold mapDocErr
    simp only [mapParasErr]
    rw [hpara]
    rfl
  · simp only [applySignatures]
    rw [if_neg (by simp [hsp, hspne] : ¬(sp = [] ∨ ¬ ex sp = true))]
    unfold mapDocErr
    simp only [mapParasErr]
    rw [hpara2]
    rfl



/-- Witness for C10 at a concrete one-placeholder document, matching key
and one existing image path. -/
theorem claim_C10_inches_name_error_witness :
    (∃ q ∈ [r"/a.png".toList], (fun s => decide (s = r"/a.png".toList)) q = true) ∧
    applyMultipleSignatures (fun s => decide (s = r"/a.png".toList))
        [(r"requester_1".toList, [r"/a.png".toList])]
        { paragraphs := [{ runs := [plainRun (([] : PyStr) ++
            (tokStr (r"requester_1|signature|R".toList) ++ ([] : PyStr)))], styleName := [] }],
          tables := [] }
      = ({ paragraphs :=
             [{ runs := [plainRun (([] : PyStr) ++ ([] : PyStr)), emptyRun], styleName := [] }],
           tables := [] }, some (PyErr.nameError inchesLit))
    ∧ applySignatures (fun s => decide (s = r"/a.png".toList)) (some (r"/a.png".toList))
        { paragraphs := [{ runs := [plainRun (([] : PyStr) ++
            (tokStr (r"requester_1|signature|R".toList) ++ ([] : PyStr)))], styleName := [] }],
          tables := [] }
      = ({ paragraphs :=
             [{ runs := [plainRun (([] : PyStr) ++ ([] : PyStr)), emptyRun], styleName := [] }],
           tables := [] }, some (PyErr.nameError inchesLit)) :=
  have hmain := claim_C10_inches_name_error (fun s => decide (s = r"/a.png".toList))
    [] [] [] (r"requester_1|signature|R".toList) (r"requester_1".toList)
    (r"/a.png".toList) [r"/a.png".toList]
    ⟨by decide, by decide⟩ ⟨by decide, by decide⟩ ⟨⟨by decide, by decide⟩, by decide⟩
    (by decide)
    (Or.inl ⟨r"requester".toList, r"1".toList, r"1".toList, by decide, by decide⟩)
    ⟨r"/a.png".toList, by decide, by decide⟩ (by decide) (by decide)
  ⟨⟨r"/a.png".toList, by decide, by decide⟩, hmain.1, hmain.2⟩


/-- Claim C3: parse keeps at most one field definition per name.  The
fields are exactly the first occurrence of each name in scan order (body
paragraphs, then table cells row-major), mapped through the field builder,
so the first occurrence supplies type, label, validation, options, bounds
and the autofilled flag; and the whole parse result — signature groups
included — is unchanged when every later duplicate occurrence is deleted
from the stream, so a later occurrence never contributes anything, in
particular never extends a signature group. -/
theorem claim_C3_first_occurrence_wins (doc : Document) :
    (parseTemplate doc).fields = (firstOccurrences (allContents doc)).map mkFieldDef
    ∧ parseTemplate doc = parseOfContents (firstOccurrences (allContents doc))
    ∧ ((parseTemplate doc).fields.map FieldDef.name).Nodup := by
  refine ⟨?_, ?_, ?_⟩
  · have h := foldl_parseStep_fields (allContents doc) {}
    simpa [parseTemplate, parseOfContents, firstOccurrences] using h
  · have h := foldl_parseStep_dedup (allContents doc) {}
    simp only [parseTemplate, parseOfContents, firstOccurrences]
    rw [← h]
  · have h := foldl_parseStep_fields (allContents doc) {}
    have h2 : (parseTemplate doc).fields.map FieldDef.name
        = (firstOccurrencesGo [] (allContents doc)).map (fun c => contentName c) := by
      simp only [parseTemplate, parseOfContents]
      rw [h]
      simp [List.map_map, Function.comp, mkFieldDef_name]
    rw [h2]
    exact (firstOccurrencesGo_nodup (allContents doc) []).1

/-- C6: for a signature field vs of prefix p and an autofilled text name
field vn matching p_N_name, parse links name_field to vn when the signature
placeholder precedes the name placeholder in scan order, and leaves
name_field None when the name placeholder comes first (services.py lines
66 to 93: the name branch updates a group only if it already exists). -/
theorem claim_C6_name_link_order_dependent (vs vn lb ds dn p : PyStr)
    (hvs : tokOK vs) (hvn : tokOK vn) (hlb : tokOK lb)
    (hvs_pipe : '|' ∉ vs) (hvn_pipe : '|' ∉ vn) (hlb_pipe : '|' ∉ lb)
    (hvs_strip : pyStrip vs = vs) (hvn_strip : pyStrip vn = vn)
    (hpn : pyMatchPfxNum vs = some (p, ds))
    (hnn : pyMatchNameFld vn = some (p, dn))
    (hne : vn ≠ vs) :
    ((parseTemplate (twoTokDoc (sigTokContent vs lb) (nameTokContent vn))).signature_groups.map
        (fun g => (g.pfx, g.name_field)) = [(p, some vn)])
    ∧ ((parseTemplate (twoTokDoc (nameTokContent vn) (sigTokContent vs lb))).signature_groups.map
        (fun g => (g.pfx, g.name_field)) = [(p, none)]) := by
  have hS := tokOK_sigContent hvs hlb
  have hN := tokOK_nameContent hvn
  have hfdS := mkFieldDef_sigContent hvs_pipe hlb_pipe hvs_strip
  have hfdN := mkFieldDef_nameContent hvn_pipe hvn_strip
  have hnameS := contentName_sigContent hvs_pipe hlb_pipe hvs_strip
  have hnameN := contentName_nameContent hvn_pipe hvn_strip
  have hne2 : vs ≠ vn := fun h => hne h.symm
  constructor
  · unfold parseTemplate
    rw [allContents_twoTokDoc hS hN]
    simp only [parseOfContents, List.foldl]
    simp [parseStep, hnameS, hnameN, hne, hne2, hfdS, hfdN, sigBranch, nameBranch,
      groupsFind?, groupsUpdate, hpn, hnn, List.find?,
      (by decide : (sigLit = textLit) = False),
      (by decide : (textLit = sigLit) = False),
      (by decide : pySubstr requiredLit (pyLower []) = false)]
  · unfold parseTemplate
    rw [allContents_twoTokDoc hN hS]
    simp only [parseOfContents, List.foldl]
    simp [parseStep, hnameS, hnameN, hne, hne2, hfdS, hfdN, sigBranch, nameBranch,
      groupsFind?, groupsUpdate, hpn, hnn, List.find?,
      (by decide : (sigLit = textLit) = False),
      (by decide : (textLit = sigLit) = False),
      (by decide : pySubstr requiredLit (pyLower []) = false)]

theorem claim_C6_name_link_order_dependent_witness :
    ((parseTemplate (twoTokDoc (sigTokContent c6SigName c6Label)
          (nameTokContent c6NameName))).signature_groups.map
        (fun g => (g.pfx, g.name_field)) = [(c6Pfx, some c6NameName)])
    ∧ ((parseTemplate (twoTokDoc (nameTokContent c6NameName)
          (sigTokContent c6SigName c6Label))).signature_groups.map
        (fun g => (g.pfx, g.name_field)) = [(c6Pfx, none)]) :=
  claim_C6_name_link_order_dependent c6SigName c6NameName c6Label ['1'] ['1'] c6Pfx
    ⟨⟨by decide, by decide⟩, by decide⟩ ⟨⟨by decide, by decide⟩, by decide⟩
    ⟨⟨by decide, by decide⟩, by decide⟩
    (by decide) (by decide) (by decide) (by decide) (by decide)
    (by decide) (by decide) (by decide)

end DocGen
